import Mathlib

/-!
Verification of the Floyd-Steinberg error-diffusion dithering engine of this
repository (src/thread.c and src/error_diffusion.c).

The C code is shallowly embedded as follows.

* `floor_divide` is the helper of thread.c lines 171-178 (identical in
  error_diffusion.c lines 142-149); C `/` on `int` is truncating division,
  embedded as `Int.tdiv`.
* `quantize` is the read-quantize-compute-error step appearing inline at
  thread.c lines 222-225 and 361-364.
* Grids are total functions `Nat → Nat → Int` (row, col); the output array is
  `Nat → Nat → Option Int`, `none` meaning the cell was never written.
* `dither_image_st` (thread.c lines 350-382) and `dither_image`
  (error_diffusion.c lines 151-187) are folds of the per-pixel body over the
  raster-order coordinate list.
* `process_wavefront` (thread.c lines 183-269) is embedded as the list of
  atomic actions a worker performs, in program order: `WAction.wait`
  (completion of the condition-variable wait loop on a predecessor's
  processed flag), `WAction.quant` (read accumulator, write output, record
  error), `WAction.dep` (one locked deposit into a target accumulator) and
  `WAction.mark` (set the processed flag).  An execution of
  `dither_image_mt` with `n` threads is a trace: a list of
  (thread id, action) pairs whose per-thread projection is exactly that
  thread's action list and in which every `wait c` occurs after `mark c`.
  This is precisely the set of schedules allowed by the wait/lock protocol
  under sequentially consistent interleaving.
-/

/-- Truncating C division on `int`, i.e. `Int.tdiv`; `floor_divide` from
thread.c lines 171-178: for a nonnegative numerator plain `/`, otherwise
`(numerator - denominator + 1) / denominator`. -/
def floor_divide (numerator denominator : Int) : Int :=
  if 0 ≤ numerator then numerator.tdiv denominator
  else (numerator - denominator + 1).tdiv denominator

/-- The quantization step of both engines (thread.c lines 222-225 and
361-364): `new_pixel = old > 128 ? 255 : 0`, error `old - new`.  Returns
(output bit, propagated error). -/
def quantize (value : Int) : Int × Int :=
  let bit : Int := if value > 128 then 255 else 0
  (bit, value - bit)

/-- The output bit for an accumulator value. -/
def qbit (value : Int) : Int := (quantize value).1

/-- The propagated error for an accumulator value. -/
def qerr (value : Int) : Int := (quantize value).2

/-- State of a serial dithering pass: the (never written) input grid, the
working accumulator grid `work`, and the output grid. -/
structure SerialState where
  input : Nat → Nat → Int
  work : Nat → Nat → Int
  out : Nat → Nat → Option Int

/-- Pointwise update of a two-argument function at one coordinate. -/
def upd2 {α : Type} (f : Nat → Nat → α) (y x : Nat) (v : α) : Nat → Nat → α :=
  fun y' x' => if y' = y ∧ x' = x then v else f y' x'

/-- One accumulator deposit, `work[ty][tx] += amount`; in the serial engines
a plain read-modify-write, in the wavefront engine the same read-modify-write
performed while holding the target's mutex. -/
def deposit (g : Nat → Nat → Int) (ty tx : Nat) (amount : Int) : Nat → Nat → Int :=
  upd2 g ty tx (g ty tx + amount)

/-- The four bounds-guarded Floyd-Steinberg deposits from the quantized
source (y,x) with propagated error `err`, in the order the C code performs
them (thread.c lines 366-374 and 229-254): (y,x+1) 7/16, then if y+1 is in
bounds (y+1,x-1) 3/16, (y+1,x) 5/16, (y+1,x+1) 1/16. -/
def propagate (width height : Nat) (g : Nat → Nat → Int) (y x : Nat) (err : Int) :
    Nat → Nat → Int :=
  let w1 := if x + 1 < width then deposit g y (x+1) (floor_divide (err * 7) 16) else g
  let w2 := if y + 1 < height ∧ 0 < x then
      deposit w1 (y+1) (x-1) (floor_divide (err * 3) 16) else w1
  let w3 := if y + 1 < height then deposit w2 (y+1) x (floor_divide (err * 5) 16) else w2
  if y + 1 < height ∧ x + 1 < width then
      deposit w3 (y+1) (x+1) (floor_divide (err * 1) 16) else w3

/-- Body of the serial loop of `dither_image_st`, thread.c lines 360-374:
quantize `work[y][x]`, write the output cell, and propagate the error. -/
def serialStep (width height : Nat) (st : SerialState) (c : Nat × Nat) : SerialState :=
  { st with
    out := upd2 st.out c.1 c.2 (some (qbit (st.work c.1 c.2))),
    work := propagate width height st.work c.1 c.2 (qerr (st.work c.1 c.2)) }

/-- Raster-order coordinate list: row-major, column-minor, exactly the nesting
of the two loops in `dither_image_st` and `dither_image`. -/
def rasterCoords (width height : Nat) : List (Nat × Nat) :=
  (List.range height).flatMap (fun y => (List.range width).map (fun x => (y, x)))

/-- Initial state of a dithering call: the working grid is seeded cell by cell
from the input grid (thread.c lines 351-357), no output cell written yet. -/
def initState (input : Nat → Nat → Int) : SerialState :=
  { input := input, work := fun y x => input y x, out := fun _ _ => none }

/-- `dither_image_st` of thread.c lines 350-382: seed the working grid from
the input and run the serial Floyd-Steinberg sweep in raster order. -/
def dither_image_st (width height : Nat) (input : Nat → Nat → Int) : SerialState :=
  (rasterCoords width height).foldl (serialStep width height) (initState input)

/-- Body of the serial loop of `dither_image`, error_diffusion.c lines
162-179; textually the same algorithm as `serialStep`. -/
def edStep (width height : Nat) (st : SerialState) (c : Nat × Nat) : SerialState :=
  { st with
    out := upd2 st.out c.1 c.2 (some (qbit (st.work c.1 c.2))),
    work := propagate width height st.work c.1 c.2 (qerr (st.work c.1 c.2)) }

/-- `dither_image` of error_diffusion.c lines 151-187: the standalone serial
implementation. -/
def dither_image (width height : Nat) (input : Nat → Nat → Int) : SerialState :=
  (rasterCoords width height).foldl (edStep width height) (initState input)

/-- The reference accumulator value of cell (y,x) in the serial sweep, at the
instant that cell is quantized: the input value plus the floor-divided
weighted errors of its already-quantized in-bounds neighbours
(y,x-1) with weight 7, (y-1,x+1) with 3, (y-1,x) with 5, (y-1,x-1) with 1. -/
def sval (width : Nat) (input : Nat → Nat → Int) (y x : Nat) : Int :=
  input y x
  + (if 0 < x then floor_divide (qerr (sval width input y (x - 1)) * 7) 16 else 0)
  + (if 0 < y ∧ x + 1 < width then floor_divide (qerr (sval width input (y - 1) (x + 1)) * 3) 16 else 0)
  + (if 0 < y then floor_divide (qerr (sval width input (y - 1) x) * 5) 16 else 0)
  + (if 0 < y ∧ 0 < x then floor_divide (qerr (sval width input (y - 1) (x - 1)) * 1) 16 else 0)
termination_by (y, x)
decreasing_by
  all_goals first
    | exact Prod.Lex.right y (by omega)
    | exact Prod.Lex.left _ _ (by omega)

/-- Error contribution received by cell (y,x) from its left neighbour. -/
def term7 (width : Nat) (input : Nat → Nat → Int) (y x : Nat) : Int :=
  floor_divide (qerr (sval width input y (x - 1)) * 7) 16

/-- Error contribution received by cell (y,x) from its upper-right neighbour. -/
def term3 (width : Nat) (input : Nat → Nat → Int) (y x : Nat) : Int :=
  floor_divide (qerr (sval width input (y - 1) (x + 1)) * 3) 16

/-- Error contribution received by cell (y,x) from its upper neighbour. -/
def term5 (width : Nat) (input : Nat → Nat → Int) (y x : Nat) : Int :=
  floor_divide (qerr (sval width input (y - 1) x) * 5) 16

/-- Error contribution received by cell (y,x) from its upper-left neighbour. -/
def term1 (width : Nat) (input : Nat → Nat → Int) (y x : Nat) : Int :=
  floor_divide (qerr (sval width input (y - 1) (x - 1)) * 1) 16

/-- Strict raster (row-major) order: (y,x) comes strictly before (r,c). -/
def rasterBefore (r c y x : Nat) : Prop := y < r ∨ (y = r ∧ x < c)

instance (r c y x : Nat) : Decidable (rasterBefore r c y x) := by
  unfold rasterBefore; infer_instance

/-- Accumulator value of cell (y,x) in the serial sweep at the instant the
sweep is about to process coordinate (r,c): input plus the contributions of
the sources already processed (those strictly raster-before (r,c)). -/
def pval (width : Nat) (input : Nat → Nat → Int) (r c y x : Nat) : Int :=
  input y x
  + (if 0 < x ∧ rasterBefore r c y (x - 1) then term7 width input y x else 0)
  + (if (0 < y ∧ x + 1 < width) ∧ rasterBefore r c (y - 1) (x + 1) then term3 width input y x else 0)
  + (if 0 < y ∧ rasterBefore r c (y - 1) x then term5 width input y x else 0)
  + (if (0 < y ∧ 0 < x) ∧ rasterBefore r c (y - 1) (x - 1) then term1 width input y x else 0)

/-- Loop invariant of the serial sweep: about to process raster position
(r,c), every in-bounds accumulator holds its `pval`, and exactly the cells
strictly raster-before (r,c) have been written with their quantized bit. -/
def SerialInv (width height : Nat) (input : Nat → Nat → Int) (r c : Nat)
    (st : SerialState) : Prop :=
  (∀ y x, y < height → x < width → st.work y x = pval width input r c y x) ∧
  (∀ y x, st.out y x =
    if (y < height ∧ x < width) ∧ rasterBefore r c y x
    then some (qbit (sval width input y x)) else none)

/-- One atomic step of a wavefront worker, thread.c lines 200-263:
`wait c` is the return of the condition-wait loop on coordinate c's
processed flag; `quant c` is the unlocked read of `work[c]`, the output
write and the local error computation (lines 222-225); `dep c k` is the
k-th locked deposit of c's error (lines 229-254); `mark c` sets c's
processed flag under c's lock and broadcasts (lines 259-263). -/
inductive WAction where
  | wait : Nat × Nat → WAction
  | quant : Nat × Nat → WAction
  | dep : Nat × Nat → Nat → WAction
  | mark : Nat × Nat → WAction
deriving DecidableEq

/-- Target cell of the k-th Floyd-Steinberg deposit from source c. -/
def depTarget (c : Nat × Nat) (k : Nat) : Nat × Nat :=
  match k with
  | 0 => (c.1, c.2 + 1)
  | 1 => (c.1 + 1, c.2 - 1)
  | 2 => (c.1 + 1, c.2)
  | _ => (c.1 + 1, c.2 + 1)

/-- Numerator weight of the k-th deposit. -/
def depWeight (k : Nat) : Int :=
  match k with
  | 0 => 7
  | 1 => 3
  | 2 => 5
  | _ => 1

/-- The bounds-guarded deposit actions of source c, in the order of
thread.c lines 229-254. -/
def depActions (width height : Nat) (c : Nat × Nat) : List WAction :=
  (if c.2 + 1 < width then [WAction.dep c 0] else [])
  ++ (if c.1 + 1 < height then
        (if 0 < c.2 then [WAction.dep c 1] else [])
        ++ [WAction.dep c 2]
        ++ (if c.2 + 1 < width then [WAction.dep c 3] else [])
      else [])

/-- The action sequence a worker performs for one pixel c, thread.c lines
200-263: wait for the top-right predecessor (y-1,x+1) if in bounds, wait
for the left predecessor (y,x-1) if in bounds, quantize and write the
output, perform the guarded deposits, mark c processed. -/
def pixelActions (width height : Nat) (c : Nat × Nat) : List WAction :=
  (if 0 < c.1 ∧ c.2 + 1 < width then [WAction.wait (c.1 - 1, c.2 + 1)] else [])
  ++ (if 0 < c.2 then [WAction.wait (c.1, c.2 - 1)] else [])
  ++ [WAction.quant c]
  ++ depActions width height c
  ++ [WAction.mark c]

/-- The pixels a worker owns, in the order it visits them (thread.c lines
189-198): diagonals `0 .. width+height-2` filtered by
`diag % num_threads = thread_id`, and inside a diagonal the rows
`0 ≤ y < height` with `x = diag - y` in `[0, width)`, in increasing y. -/
def ownedPixels (num_threads thread_id width height : Nat) : List (Nat × Nat) :=
  ((List.range (width + height - 1)).filter
      (fun d => d % num_threads = thread_id)).flatMap
    (fun d => ((List.range height).filter (fun y => y ≤ d ∧ d - y < width)).map
      (fun y => (y, d - y)))

/-- The whole program of one wavefront worker (thread.c lines 183-269). -/
def process_wavefront (num_threads thread_id width height : Nat) : List WAction :=
  (ownedPixels num_threads thread_id width height).flatMap (pixelActions width height)

/-- Shared state of a wavefront dithering call: the (never written) input,
the accumulator grid, the output grid, the per-pixel recorded quantization
error (the worker's local `err` of thread.c line 225), and the per-pixel
processed flags. -/
structure MTState where
  input : Nat → Nat → Int
  work : Nat → Nat → Int
  out : Nat → Nat → Option Int
  errv : Nat → Nat → Int
  processed : Nat → Nat → Bool

/-- Effect of one atomic action on the shared state. -/
def mtStep (st : MTState) (a : WAction) : MTState :=
  match a with
  | WAction.wait _ => st
  | WAction.quant c =>
      { st with
        out := upd2 st.out c.1 c.2 (some (qbit (st.work c.1 c.2))),
        errv := upd2 st.errv c.1 c.2 (qerr (st.work c.1 c.2)) }
  | WAction.dep c k =>
      { st with
        work := deposit st.work (depTarget c k).1 (depTarget c k).2
          (floor_divide (st.errv c.1 c.2 * depWeight k) 16) }
  | WAction.mark c =>
      { st with processed := upd2 st.processed c.1 c.2 true }

/-- Initial shared state of `dither_image_mt` (thread.c lines 274-301):
work seeded from the input, no output written, no pixel processed. -/
def initMT (input : Nat → Nat → Int) : MTState :=
  { input := input, work := fun y x => input y x, out := fun _ _ => none,
    errv := fun _ _ => 0, processed := fun _ _ => false }

/-- Run a sequence of atomic actions from the initial state. -/
def runMT (input : Nat → Nat → Int) (es : List WAction) : MTState :=
  es.foldl mtStep (initMT input)

/-- The subsequence of actions executed by thread t in a trace. -/
def projThread (t : Nat) (tr : List (Nat × WAction)) : List WAction :=
  (tr.filter (fun p => p.1 = t)).map Prod.snd

/-- The executions of `dither_image_mt` allowed by the wait/lock protocol:
a trace (an interleaving of the workers' atomic actions under sequential
consistency) is valid when every event belongs to one of the
`num_threads` workers, each worker's projection is exactly its
`process_wavefront` program, and a condition wait on coordinate c can
only return after c has been marked processed. -/
def ValidTrace (num_threads width height : Nat) (tr : List (Nat × WAction)) : Prop :=
  (∀ p ∈ tr, p.1 < num_threads) ∧
  (∀ t, t < num_threads →
    projThread t tr = process_wavefront num_threads t width height) ∧
  (∀ i : Fin tr.length, ∀ c : Nat × Nat, (tr.get i).2 = WAction.wait c →
    ∃ j : Fin tr.length, j.1 < i.1 ∧ (tr.get j).2 = WAction.mark c)

/-- Bounds guard under which the C code performs the k-th deposit
(thread.c lines 230, 236-238, 244, 250). -/
def depGuard (width height : Nat) (c : Nat × Nat) (k : Nat) : Prop :=
  match k with
  | 0 => c.2 + 1 < width
  | 1 => c.1 + 1 < height ∧ 0 < c.2
  | 2 => c.1 + 1 < height
  | 3 => c.1 + 1 < height ∧ c.2 + 1 < width
  | _ => False

instance (width height : Nat) (c : Nat × Nat) (k : Nat) :
    Decidable (depGuard width height c k) := by
  rcases k with _ | _ | _ | _ | k <;> simp only [depGuard] <;> infer_instance

/-- a occurs strictly before b somewhere in the event list. -/
def OccBefore (a b : WAction) (es : List WAction) : Prop :=
  ∃ l1 l2 l3, es = l1 ++ a :: l2 ++ b :: l3

/-- Accumulator value of cell (y,x) after executing a prefix P of the trace:
the input plus the contributions of exactly those predecessor deposits that
appear in P. -/
def dval (width : Nat) (input : Nat → Nat → Int) (P : List WAction) (y x : Nat) : Int :=
  input y x
  + (if 0 < x ∧ WAction.dep (y, x - 1) 0 ∈ P then term7 width input y x else 0)
  + (if 0 < y ∧ WAction.dep (y - 1, x + 1) 1 ∈ P then term3 width input y x else 0)
  + (if 0 < y ∧ WAction.dep (y - 1, x) 2 ∈ P then term5 width input y x else 0)
  + (if (0 < y ∧ 0 < x) ∧ WAction.dep (y - 1, x - 1) 3 ∈ P then term1 width input y x else 0)

/-- Invariant of a wavefront execution after a prefix P of the interleaved
trace: the accumulator of every cell equals `dval`, and exactly the
already-quantized cells have their output bit and recorded error. -/
def MTInv (width : Nat) (input : Nat → Nat → Int) (P : List WAction) : Prop :=
  (∀ y x, (runMT input P).work y x = dval width input P y x) ∧
  (∀ y x, (runMT input P).out y x =
    if WAction.quant (y, x) ∈ P then some (qbit (sval width input y x)) else none) ∧
  (∀ y x, (runMT input P).errv y x =
    if WAction.quant (y, x) ∈ P then qerr (sval width input y x) else 0)

/-- A 2x1 input image (width 1, height 2): 200 on top, 130 below. -/
def cexInput : Nat → Nat → Int := fun y _ => if y = 0 then 200 else 130

/-- An execution of `dither_image_mt` with 2 threads on a width-1 image in
which thread 1 (owner of diagonal 1, pixel (1,0)) runs completely before
thread 0 (owner of diagonal 0, pixel (0,0)).  Pixel (1,0) has no in-bounds
top-right or left predecessor, so the wait protocol imposes no constraint
on this schedule, although pixel (0,0) still deposits 5/16 of its error
into (1,0). -/
def cexTrace : List (Nat × WAction) :=
  [(1, WAction.quant (1, 0)), (1, WAction.mark (1, 0)),
   (0, WAction.quant (0, 0)), (0, WAction.dep (0, 0) 2), (0, WAction.mark (0, 0))]

/-- A uniform 1x2 input image (width 2, height 1). -/
def okInput : Nat → Nat → Int := fun _ _ => 200

/-- The unique execution of a single wavefront worker on a 1x2 image. -/
def okTrace : List (Nat × WAction) :=
  [(0, WAction.quant (0, 0)), (0, WAction.dep (0, 0) 0), (0, WAction.mark (0, 0)),
   (0, WAction.wait (0, 0)), (0, WAction.quant (0, 1)), (0, WAction.mark (0, 1))]

/-- Kind of an access to the shared accumulator array `work`. -/
inductive AccKind where
  | quantRead : AccKind
  | depositAcc : AccKind
deriving DecidableEq

/-- One access to the `work` array, with the mutex the accessing thread
holds at that moment (`none` when no mutex is held). -/
structure WorkAccess where
  cell : Nat × Nat
  kind : AccKind
  lockHeld : Option (Nat × Nat)
deriving DecidableEq

/-- The accumulator accesses a wavefront worker performs for one pixel c,
in program order, with the lock context of each, transcribed from thread.c
lines 220-254: the quantization read of `work[y][x]` (line 222) is
performed with no mutex held; each guarded deposit (lines 230-253) is a
read-modify-write of the target cell performed between
`pthread_mutex_lock(target)` and `pthread_mutex_unlock(target)`. -/
def pixelWorkAccesses (width height : Nat) (c : Nat × Nat) : List WorkAccess :=
  [⟨c, AccKind.quantRead, none⟩]
  ++ (if c.2 + 1 < width then
        [⟨(c.1, c.2 + 1), AccKind.depositAcc, some (c.1, c.2 + 1)⟩] else [])
  ++ (if c.1 + 1 < height then
        (if 0 < c.2 then
          [⟨(c.1 + 1, c.2 - 1), AccKind.depositAcc, some (c.1 + 1, c.2 - 1)⟩] else [])
        ++ [⟨(c.1 + 1, c.2), AccKind.depositAcc, some (c.1 + 1, c.2)⟩]
        ++ (if c.2 + 1 < width then
          [⟨(c.1 + 1, c.2 + 1), AccKind.depositAcc, some (c.1 + 1, c.2 + 1)⟩] else [])
      else [])

/-- The phases `dither_image_mt` (thread.c lines 272-347) performs, in
order.  The function contains no branch on its parameters: it
unconditionally allocates the working grid (lines 274-280), allocates and
initializes the per-pixel synchronization cells (lines 283-301), spawns
the workers, joins them, and frees everything.  The parameters are listed
to document that none of them is inspected before the allocations. -/
inductive MtPhase where
  | allocWork : MtPhase
  | allocSync : MtPhase
  | spawnWorkers : MtPhase
  | joinWorkers : MtPhase
  | cleanup : MtPhase
deriving DecidableEq

def dither_image_mt_phases (width height num_threads : Int) : List MtPhase :=
  [MtPhase.allocWork, MtPhase.allocSync, MtPhase.spawnWorkers,
   MtPhase.joinWorkers, MtPhase.cleanup]

/-- Outcome of `main` (thread.c lines 386-444). -/
inductive MainOutcome where
  | usageError : MainOutcome
  | readError : MainOutcome
  | ranSerial : MainOutcome
  | ranParallel : MainOutcome
deriving DecidableEq

/-- Control flow of `main` (thread.c lines 386-444): reject when the
argument count is neither 3 nor 4 (line 387), reject when the PNG cannot
be read (line 398), otherwise run the serial engine when
`num_threads <= 1 || height*width < 10000` (line 423) and the wavefront
engine otherwise.  There is no check on the dimensions themselves. -/
def main_model (argc : Int) (read_ok : Bool) (width height num_threads : Int) :
    MainOutcome :=
  if argc ≠ 3 ∧ argc ≠ 4 then MainOutcome.usageError
  else if ¬ read_ok then MainOutcome.readError
  else if num_threads ≤ 1 ∨ height * width < 10000 then MainOutcome.ranSerial
  else MainOutcome.ranParallel

/-- The pixel quantized by an action, if any. -/
def quantOf : WAction → Option (Nat × Nat)
  | WAction.quant c => some c
  | _ => none

theorem floor_divide_neg_case (n : Int) (h : n < 0) :
    floor_divide n 16 = n.fdiv 16 := by
  have h15 : (0:Int) ≤ 15 - n := by omega
  have he : n - 16 + 1 = -(15 - n) := by ring
  have ht : Int.tdiv (-(15 - n)) 16 = -(Int.tdiv (15 - n) 16) := Int.neg_tdiv _ _
  have h2 : Int.tdiv (15 - n) 16 = (15 - n) / 16 :=
    Int.tdiv_eq_ediv h15 (by norm_num)
  have h3 : n.fdiv 16 = n / 16 := Int.fdiv_eq_ediv n (by norm_num)
  have hn : ¬ (0 ≤ n) := by omega
  rw [floor_divide, if_neg hn, he, ht, h2, h3]
  omega

theorem floor_divide_eq_fdiv (n : Int) : floor_divide n 16 = n.fdiv 16 := by
  by_cases h : 0 ≤ n
  · rw [floor_divide, if_pos h, Int.tdiv_eq_ediv h (by norm_num),
      Int.fdiv_eq_ediv n (by norm_num)]
  · exact floor_divide_neg_case n (by omega)

/-- C3: `floor_divide(·, 16)` is mathematical floor division; in particular
it satisfies the floor characterization and the five sample values of the
spec: -1, -1, -1, 0, 1 at numerators -1, -15, -16, 15, 16. -/
theorem floor_divide_is_floor :
    (∀ n : Int, floor_divide n 16 = n.fdiv 16) ∧
    (∀ n : Int, 16 * floor_divide n 16 ≤ n ∧ n < 16 * floor_divide n 16 + 16) ∧
    floor_divide (-1) 16 = -1 ∧ floor_divide (-15) 16 = -1 ∧
    floor_divide (-16) 16 = -1 ∧ floor_divide 15 16 = 0 ∧
    floor_divide 16 16 = 1 := by
  refine ⟨floor_divide_eq_fdiv, ?_, by decide, by decide, by decide, by decide, by decide⟩
  intro n
  rw [floor_divide_eq_fdiv, Int.fdiv_eq_ediv n (by norm_num)]
  omega

theorem sval_eq (width : Nat) (input : Nat → Nat → Int) (y x : Nat) :
    sval width input y x =
      input y x
      + (if 0 < x then term7 width input y x else 0)
      + (if 0 < y ∧ x + 1 < width then term3 width input y x else 0)
      + (if 0 < y then term5 width input y x else 0)
      + (if 0 < y ∧ 0 < x then term1 width input y x else 0) := by
  rw [sval]; rfl

theorem pval_self (width : Nat) (input : Nat → Nat → Int) (y x : Nat) :
    pval width input y x y x = sval width input y x := by
  rw [sval_eq, pval]
  have h1 : (0 < x ∧ rasterBefore y x y (x - 1)) ↔ 0 < x := by
    unfold rasterBefore; omega
  have h2 : ((0 < y ∧ x + 1 < width) ∧ rasterBefore y x (y - 1) (x + 1)) ↔
      (0 < y ∧ x + 1 < width) := by unfold rasterBefore; omega
  have h3 : (0 < y ∧ rasterBefore y x (y - 1) x) ↔ 0 < y := by
    unfold rasterBefore; omega
  have h4 : ((0 < y ∧ 0 < x) ∧ rasterBefore y x (y - 1) (x - 1)) ↔ (0 < y ∧ 0 < x) := by
    unfold rasterBefore; omega
  rw [if_congr h1 rfl rfl, if_congr h2 rfl rfl, if_congr h3 rfl rfl, if_congr h4 rfl rfl]

theorem upd2_same {α : Type} (f : Nat → Nat → α) (y x : Nat) (v : α) :
    upd2 f y x v y x = v := by simp [upd2]

theorem upd2_ne {α : Type} (f : Nat → Nat → α) (y x : Nat) (v : α) (y' x' : Nat)
    (h : ¬ (y' = y ∧ x' = x)) : upd2 f y x v y' x' = f y' x' := by
  simp only [upd2, if_neg h]

theorem deposit_eval (g : Nat → Nat → Int) (ty tx : Nat) (a : Int) (y x : Nat) :
    deposit g ty tx a y x = g y x + (if y = ty ∧ x = tx then a else 0) := by
  by_cases h : y = ty ∧ x = tx
  · obtain ⟨h1, h2⟩ := h; subst h1; subst h2
    rw [deposit, upd2_same, if_pos ⟨rfl, rfl⟩]
  · rw [deposit, upd2_ne _ _ _ _ _ _ h, if_neg h, add_zero]

theorem ite_deposit_eval (P : Prop) [Decidable P] (g : Nat → Nat → Int) (ty tx : Nat)
    (a : Int) (y x : Nat) :
    (if P then deposit g ty tx a else g) y x =
      g y x + (if y = ty ∧ x = tx ∧ P then a else 0) := by
  by_cases hP : P
  · rw [if_pos hP, deposit_eval]
    by_cases h : y = ty ∧ x = tx
    · rw [if_pos h, if_pos ⟨h.1, h.2, hP⟩]
    · rw [if_neg h, if_neg (by tauto)]
  · rw [if_neg hP, if_neg (by tauto), add_zero]

theorem propagate_eval (width height : Nat) (g : Nat → Nat → Int) (r c : Nat)
    (err : Int) (y x : Nat) :
    propagate width height g r c err y x =
      g y x
      + (if y = r ∧ x = c + 1 ∧ c + 1 < width then floor_divide (err * 7) 16 else 0)
      + (if y = r + 1 ∧ x = c - 1 ∧ (r + 1 < height ∧ 0 < c) then
           floor_divide (err * 3) 16 else 0)
      + (if y = r + 1 ∧ x = c ∧ r + 1 < height then floor_divide (err * 5) 16 else 0)
      + (if y = r + 1 ∧ x = c + 1 ∧ (r + 1 < height ∧ c + 1 < width) then
           floor_divide (err * 1) 16 else 0) := by
  unfold propagate
  rw [ite_deposit_eval, ite_deposit_eval, ite_deposit_eval, ite_deposit_eval]

theorem serialStep_out (width height : Nat) (st : SerialState) (r c y x : Nat) :
    (serialStep width height st (r, c)).out y x =
      if y = r ∧ x = c then some (qbit (st.work r c)) else st.out y x := by
  show upd2 st.out r c (some (qbit (st.work r c))) y x = _
  by_cases h : y = r ∧ x = c
  · obtain ⟨h1, h2⟩ := h; subst h1; subst h2
    rw [upd2_same, if_pos ⟨rfl, rfl⟩]
  · rw [upd2_ne _ _ _ _ _ _ h, if_neg h]

theorem serialStep_work (width height : Nat) (st : SerialState) (r c y x : Nat) :
    (serialStep width height st (r, c)).work y x =
      st.work y x
      + (if y = r ∧ x = c + 1 ∧ c + 1 < width then
           floor_divide (qerr (st.work r c) * 7) 16 else 0)
      + (if y = r + 1 ∧ x = c - 1 ∧ (r + 1 < height ∧ 0 < c) then
           floor_divide (qerr (st.work r c) * 3) 16 else 0)
      + (if y = r + 1 ∧ x = c ∧ r + 1 < height then
           floor_divide (qerr (st.work r c) * 5) 16 else 0)
      + (if y = r + 1 ∧ x = c + 1 ∧ (r + 1 < height ∧ c + 1 < width) then
           floor_divide (qerr (st.work r c) * 1) 16 else 0) := by
  exact propagate_eval width height st.work r c (qerr (st.work r c)) y x

theorem serialInv_init (width height : Nat) (input : Nat → Nat → Int) :
    SerialInv width height input 0 0 (initState input) := by
  constructor
  · intro y x _ _
    show input y x = pval width input 0 0 y x
    have hrb : ∀ ys xs : Nat, ¬ rasterBefore 0 0 ys xs := by
      intro ys xs; unfold rasterBefore; omega
    rw [pval, if_neg (fun hh => hrb _ _ hh.2), if_neg (fun hh => hrb _ _ hh.2),
      if_neg (fun hh => hrb _ _ hh.2), if_neg (fun hh => hrb _ _ hh.2)]
    ring
  · intro y x
    show (none : Option Int) = _
    have hrb : ¬ rasterBefore 0 0 y x := by unfold rasterBefore; omega
    rw [if_neg (fun hh => hrb hh.2)]

theorem ite_flip {P Q R : Prop} [Decidable P] [Decidable Q] [Decidable R] {t u : Int}
    (hQ : Q ↔ P ∨ R) (hdisj : ¬ (P ∧ R)) (hval : R → t = u) :
    (if P then t else 0) + (if R then u else 0) = (if Q then t else 0) := by
  by_cases hP : P
  · rw [if_pos hP, if_neg (fun hR => hdisj ⟨hP, hR⟩), if_pos (hQ.mpr (Or.inl hP)), add_zero]
  · by_cases hR : R
    · rw [if_neg hP, if_pos hR, if_pos (hQ.mpr (Or.inr hR)), hval hR, zero_add]
    · rw [if_neg hP, if_neg hR, add_zero, if_neg]
      intro hq
      rcases hQ.mp hq with hh | hh
      · exact hP hh
      · exact hR hh

theorem serialStep_inv (width height : Nat) (input : Nat → Nat → Int) (r c : Nat)
    (st : SerialState) (hr : r < height) (hc : c < width)
    (h : SerialInv width height input r c st) :
    SerialInv width height input r (c + 1) (serialStep width height st (r, c)) := by
  obtain ⟨hW, hO⟩ := h
  have hwrc : st.work r c = sval width input r c := by
    rw [hW r c hr hc, pval_self]
  constructor
  · intro y x hy hx
    rw [serialStep_work, hW y x hy hx, hwrc, pval, pval]
    have f7 : (if 0 < x ∧ rasterBefore r c y (x - 1) then term7 width input y x else 0)
        + (if y = r ∧ x = c + 1 ∧ c + 1 < width then
             floor_divide (qerr (sval width input r c) * 7) 16 else 0)
        = (if 0 < x ∧ rasterBefore r (c + 1) y (x - 1) then term7 width input y x else 0) := by
      refine ite_flip (by unfold rasterBefore; omega) (by unfold rasterBefore; omega) ?_
      rintro ⟨rfl, rfl, -⟩
      rw [term7, show c + 1 - 1 = c from by omega]
    have f3 : (if (0 < y ∧ x + 1 < width) ∧ rasterBefore r c (y - 1) (x + 1)
             then term3 width input y x else 0)
        + (if y = r + 1 ∧ x = c - 1 ∧ (r + 1 < height ∧ 0 < c) then
             floor_divide (qerr (sval width input r c) * 3) 16 else 0)
        = (if (0 < y ∧ x + 1 < width) ∧ rasterBefore r (c + 1) (y - 1) (x + 1)
             then term3 width input y x else 0) := by
      refine ite_flip (by unfold rasterBefore; omega) (by unfold rasterBefore; omega) ?_
      rintro ⟨rfl, rfl, -, hcp⟩
      rw [term3, show r + 1 - 1 = r from by omega, show c - 1 + 1 = c from by omega]
    have f5 : (if 0 < y ∧ rasterBefore r c (y - 1) x then term5 width input y x else 0)
        + (if y = r + 1 ∧ x = c ∧ r + 1 < height then
             floor_divide (qerr (sval width input r c) * 5) 16 else 0)
        = (if 0 < y ∧ rasterBefore r (c + 1) (y - 1) x then term5 width input y x else 0) := by
      refine ite_flip (by unfold rasterBefore; omega) (by unfold rasterBefore; omega) ?_
      rintro ⟨rfl, rfl, -⟩
      rw [term5, show r + 1 - 1 = r from by omega]
    have f1 : (if (0 < y ∧ 0 < x) ∧ rasterBefore r c (y - 1) (x - 1)
             then term1 width input y x else 0)
        + (if y = r + 1 ∧ x = c + 1 ∧ (r + 1 < height ∧ c + 1 < width) then
             floor_divide (qerr (sval width input r c) * 1) 16 else 0)
        = (if (0 < y ∧ 0 < x) ∧ rasterBefore r (c + 1) (y - 1) (x - 1)
             then term1 width input y x else 0) := by
      refine ite_flip (by unfold rasterBefore; omega) (by unfold rasterBefore; omega) ?_
      rintro ⟨rfl, rfl, -⟩
      rw [term1, show r + 1 - 1 = r from by omega, show c + 1 - 1 = c from by omega]
    rw [← f7, ← f3, ← f5, ← f1]
    ring
  · intro y x
    rw [serialStep_out]
    by_cases hyx : y = r ∧ x = c
    · obtain ⟨h1, h2⟩ := hyx; subst h1; subst h2
      rw [if_pos ⟨rfl, rfl⟩, hwrc, if_pos ⟨⟨hr, hc⟩, Or.inr ⟨rfl, by omega⟩⟩]
    · rw [if_neg hyx, hO y x]
      have hiff : ((y < height ∧ x < width) ∧ rasterBefore r c y x) ↔
          ((y < height ∧ x < width) ∧ rasterBefore r (c + 1) y x) := by
        unfold rasterBefore; omega
      rw [if_congr hiff rfl rfl]

theorem pval_row_end (width : Nat) (input : Nat → Nat → Int) (r y x : Nat)
    (hx : x < width) :
    pval width input r width y x = pval width input (r + 1) 0 y x := by
  rw [pval, pval]
  have h7 : (0 < x ∧ rasterBefore r width y (x - 1)) ↔
      (0 < x ∧ rasterBefore (r + 1) 0 y (x - 1)) := by unfold rasterBefore; omega
  have h3 : ((0 < y ∧ x + 1 < width) ∧ rasterBefore r width (y - 1) (x + 1)) ↔
      ((0 < y ∧ x + 1 < width) ∧ rasterBefore (r + 1) 0 (y - 1) (x + 1)) := by
    unfold rasterBefore; omega
  have h5 : (0 < y ∧ rasterBefore r width (y - 1) x) ↔
      (0 < y ∧ rasterBefore (r + 1) 0 (y - 1) x) := by unfold rasterBefore; omega
  have h1 : ((0 < y ∧ 0 < x) ∧ rasterBefore r width (y - 1) (x - 1)) ↔
      ((0 < y ∧ 0 < x) ∧ rasterBefore (r + 1) 0 (y - 1) (x - 1)) := by
    unfold rasterBefore; omega
  rw [if_congr h7 rfl rfl, if_congr h3 rfl rfl, if_congr h5 rfl rfl,
    if_congr h1 rfl rfl]

theorem serialInv_row_end (width height : Nat) (input : Nat → Nat → Int) (r : Nat)
    (st : SerialState) (h : SerialInv width height input r width st) :
    SerialInv width height input (r + 1) 0 st := by
  obtain ⟨hW, hO⟩ := h
  constructor
  · intro y x hy hx
    rw [hW y x hy hx, pval_row_end width input r y x hx]
  · intro y x
    have hiff : ((y < height ∧ x < width) ∧ rasterBefore r width y x) ↔
        ((y < height ∧ x < width) ∧ rasterBefore (r + 1) 0 y x) := by
      unfold rasterBefore; omega
    rw [hO y x, if_congr hiff rfl rfl]

theorem serial_fold_row (width height : Nat) (input : Nat → Nat → Int) (r : Nat)
    (hr : r < height) :
    ∀ (k c0 : Nat) (st : SerialState), c0 + k = width →
      SerialInv width height input r c0 st →
      SerialInv width height input r width
        (((List.range' c0 k).map (fun x => (r, x))).foldl (serialStep width height) st) := by
  intro k
  induction k with
  | zero =>
    intro c0 st hsum hinv
    simp only [List.range'_zero, List.map_nil, List.foldl_nil]
    have : c0 = width := by omega
    subst this; exact hinv
  | succ k ih =>
    intro c0 st hsum hinv
    rw [List.range'_succ, List.map_cons, List.foldl_cons]
    exact ih (c0 + 1) _ (by omega)
      (serialStep_inv width height input r c0 st hr (by omega) hinv)

theorem serial_fold_rows (width height : Nat) (input : Nat → Nat → Int) :
    ∀ (k r0 : Nat) (st : SerialState), r0 + k = height →
      SerialInv width height input r0 0 st →
      SerialInv width height input height 0
        (((List.range' r0 k).flatMap
            (fun y => (List.range width).map (fun x => (y, x)))).foldl
          (serialStep width height) st) := by
  intro k
  induction k with
  | zero =>
    intro r0 st hsum hinv
    simp only [List.range'_zero, List.flatMap_nil, List.foldl_nil]
    have : r0 = height := by omega
    subst this; exact hinv
  | succ k ih =>
    intro r0 st hsum hinv
    rw [List.range'_succ, List.flatMap_cons, List.foldl_append]
    refine ih (r0 + 1) _ (by omega) ?_
    refine serialInv_row_end width height input r0 _ ?_
    have hrow := serial_fold_row width height input r0 (by omega) width 0 st
      (by omega) hinv
    rw [List.range_eq_range']
    exact hrow

/-- Final characterization of the serial engine: every in-bounds output cell
holds the quantized bit of its reference accumulator value, every
out-of-bounds cell is untouched. -/
theorem dither_image_st_out (width height : Nat) (input : Nat → Nat → Int)
    (y x : Nat) :
    (dither_image_st width height input).out y x =
      if y < height ∧ x < width then some (qbit (sval width input y x)) else none := by
  have h := serial_fold_rows width height input height 0 (initState input)
    (by omega) (serialInv_init width height input)
  have h2 := h.2 y x
  have hiff : ((y < height ∧ x < width) ∧ rasterBefore height 0 y x) ↔
      (y < height ∧ x < width) := by unfold rasterBefore; omega
  rw [dither_image_st, rasterCoords, List.range_eq_range']
  rw [h2, if_congr hiff rfl rfl]

theorem count_flatMap_eq {α β : Type} [DecidableEq β] (l : List α) (f : α → List β)
    (b : β) : (l.flatMap f).count b = (l.map (fun a => (f a).count b)).sum := by
  induction l with
  | nil => simp
  | cons a l ih => simp [List.flatMap_cons, List.count_append, ih]

theorem sum_indicator_eq_count {α : Type} [DecidableEq α] (l : List α) (c : α) :
    (l.map (fun a => if a = c then 1 else 0)).sum = l.count c := by
  induction l with
  | nil => simp
  | cons a l ih => by_cases h : a = c <;> simp [List.count_cons, h, ih, Nat.add_comm]

theorem count_ite_singleton {α : Type} [DecidableEq α] (P : Prop) [Decidable P]
    (a b : α) : ((if P then [a] else []) : List α).count b = if b = a ∧ P then 1 else 0 := by
  by_cases hP : P <;> by_cases hb : b = a <;>
    simp [hP, hb, List.count_cons, List.count_nil]

theorem count_quant_pixelActions (width height : Nat) (c c' : Nat × Nat) :
    (pixelActions width height c').count (WAction.quant c) = if c' = c then 1 else 0 := by
  simp only [pixelActions, depActions, List.count_append, List.append_assoc]
  rw [count_ite_singleton, count_ite_singleton]
  by_cases h : c' = c
  · subst h
    simp [List.count_cons, List.count_append, count_ite_singleton, List.count_nil]
    split_ifs <;> simp_all
  · have h' : ¬ (WAction.quant c = WAction.quant c') := by
      intro hq; exact h (WAction.quant.inj hq).symm
    simp [List.count_cons, List.count_append, count_ite_singleton, List.count_nil, h, h']
    split_ifs <;> simp_all

theorem count_mark_pixelActions (width height : Nat) (c c' : Nat × Nat) :
    (pixelActions width height c').count (WAction.mark c) = if c' = c then 1 else 0 := by
  simp only [pixelActions, depActions, List.count_append, List.append_assoc]
  rw [count_ite_singleton, count_ite_singleton]
  by_cases h : c' = c
  · subst h
    simp [List.count_cons, List.count_append, count_ite_singleton, List.count_nil]
    split_ifs <;> simp_all
  · have h' : ¬ (WAction.mark c = WAction.mark c') := by
      intro hq; exact h (WAction.mark.inj hq).symm
    simp [List.count_cons, List.count_append, count_ite_singleton, List.count_nil, h, h']
    split_ifs <;> simp_all

theorem count_wait_pixelActions (width height : Nat) (c c' : Nat × Nat) :
    (pixelActions width height c').count (WAction.quant c) = if c' = c then 1 else 0 :=
  count_quant_pixelActions width height c c'

theorem count_dep_pixelActions (width height : Nat) (c c' : Nat × Nat) (k : Nat) :
    (pixelActions width height c').count (WAction.dep c k) =
      if c' = c ∧ depGuard width height c k then 1 else 0 := by
  simp only [pixelActions, depActions, List.count_append, List.append_assoc]
  rw [count_ite_singleton, count_ite_singleton]
  rcases k with _ | _ | _ | _ | k <;> by_cases h : c' = c
  · subst h
    simp only [depGuard]
    simp [List.count_cons, List.count_append, count_ite_singleton, List.count_nil]
    split_ifs <;> (try simp_all) <;> omega
  · have h' : ∀ j : Nat, ¬ (WAction.dep c 0 = WAction.dep c' j) := by
      intro j hq; exact h ((WAction.dep.inj hq).1).symm
    simp [List.count_cons, List.count_append, count_ite_singleton, List.count_nil, h]
    split_ifs <;> (try simp_all) <;> omega
  · subst h
    simp only [depGuard]
    simp [List.count_cons, List.count_append, count_ite_singleton, List.count_nil]
    split_ifs <;> (try simp_all) <;> omega
  · have h' : ∀ j : Nat, ¬ (WAction.dep c 1 = WAction.dep c' j) := by
      intro j hq; exact h ((WAction.dep.inj hq).1).symm
    simp [List.count_cons, List.count_append, count_ite_singleton, List.count_nil, h]
    split_ifs <;> (try simp_all) <;> omega
  · subst h
    simp only [depGuard]
    simp [List.count_cons, List.count_append, count_ite_singleton, List.count_nil]
    split_ifs <;> (try simp_all) <;> omega
  · have h' : ∀ j : Nat, ¬ (WAction.dep c 2 = WAction.dep c' j) := by
      intro j hq; exact h ((WAction.dep.inj hq).1).symm
    simp [List.count_cons, List.count_append, count_ite_singleton, List.count_nil, h]
    split_ifs <;> (try simp_all) <;> omega
  · subst h
    simp only [depGuard]
    simp [List.count_cons, List.count_append, count_ite_singleton, List.count_nil]
    split_ifs <;> (try simp_all) <;> omega
  · have h' : ∀ j : Nat, ¬ (WAction.dep c 3 = WAction.dep c' j) := by
      intro j hq; exact h ((WAction.dep.inj hq).1).symm
    simp [List.count_cons, List.count_append, count_ite_singleton, List.count_nil, h]
    split_ifs <;> (try simp_all) <;> omega
  · subst h
    simp only [depGuard]
    simp [List.count_cons, List.count_append, count_ite_singleton, List.count_nil]
    split_ifs <;> (try simp_all) <;> omega
  · have h' : ∀ j : Nat, ¬ (WAction.dep c (k+4) = WAction.dep c' j) := by
      intro j hq; exact h ((WAction.dep.inj hq).1).symm
    simp [List.count_cons, List.count_append, count_ite_singleton, List.count_nil, h]
    split_ifs <;> (try simp_all) <;> omega

theorem count_nodup_mem {α : Type} [DecidableEq α] (l : List α) (hl : l.Nodup)
    (c : α) : l.count c = if c ∈ l then 1 else 0 := by
  induction l with
  | nil => simp
  | cons a l ih =>
    have ha : a ∉ l := (List.nodup_cons.mp hl).1
    have hl' : l.Nodup := (List.nodup_cons.mp hl).2
    rw [List.count_cons, ih hl']
    by_cases hc : c = a
    · subst hc
      simp [ha]
    · have hne : (a == c) = false := by
        simpa using fun h => hc h.symm
      simp [hc, List.mem_cons, hne]

theorem mem_ownedPixels (num_threads thread_id width height : Nat) (c : Nat × Nat) :
    c ∈ ownedPixels num_threads thread_id width height ↔
      c.1 < height ∧ c.2 < width ∧ (c.1 + c.2) % num_threads = thread_id := by
  simp only [ownedPixels, List.mem_flatMap, List.mem_map, List.mem_filter,
    List.mem_range, decide_eq_true_eq]
  constructor
  · rintro ⟨d, ⟨hd, hmod⟩, y, ⟨hy, hyd⟩, rfl⟩
    refine ⟨hy, by omega, ?_⟩
    have : y + (d - y) = d := by omega
    rw [this]; exact hmod
  · rintro ⟨h1, h2, h3⟩
    refine ⟨c.1 + c.2, ⟨by omega, h3⟩, c.1, ⟨h1, by omega⟩, ?_⟩
    have : c.1 + c.2 - c.1 = c.2 := by omega
    rw [this]

theorem ownedPixels_nodup (num_threads thread_id width height : Nat) :
    (ownedPixels num_threads thread_id width height).Nodup := by
  rw [ownedPixels, List.nodup_flatMap]
  constructor
  · intro d _
    refine List.Nodup.map ?_ (List.Nodup.filter _ (List.nodup_range _))
    intro a b hab
    exact congrArg Prod.fst hab
  · refine List.Pairwise.filter _ ?_
    have hr : (List.range (width + height - 1)).Pairwise (· ≠ ·) :=
      List.Pairwise.imp Nat.ne_of_lt (List.pairwise_lt_range _)
    refine hr.imp ?_
    intro d1 d2 hne
    intro a ha hb
    simp only [List.mem_map, List.mem_filter, List.mem_range, decide_eq_true_eq] at ha hb
    obtain ⟨y1, ⟨_, hy1⟩, rfl⟩ := ha
    obtain ⟨y2, ⟨_, hy2⟩, he⟩ := hb
    have e1 : y2 = y1 := congrArg Prod.fst he
    have e2 : d2 - y2 = d1 - y1 := congrArg Prod.snd he
    exact hne (by omega)

theorem count_quant_worker (num_threads thread_id width height : Nat) (c : Nat × Nat) :
    (process_wavefront num_threads thread_id width height).count (WAction.quant c) =
      if c.1 < height ∧ c.2 < width ∧ (c.1 + c.2) % num_threads = thread_id
      then 1 else 0 := by
  rw [process_wavefront, count_flatMap_eq]
  have heq : (ownedPixels num_threads thread_id width height).map
      (fun a => (pixelActions width height a).count (WAction.quant c)) =
      (ownedPixels num_threads thread_id width height).map
      (fun a => if a = c then 1 else 0) := by
    refine List.map_congr_left ?_
    intro a _
    exact count_quant_pixelActions width height c a
  rw [heq, sum_indicator_eq_count]
  rw [count_nodup_mem _ (ownedPixels_nodup _ _ _ _) c]
  simp [mem_ownedPixels]

theorem count_mark_worker (num_threads thread_id width height : Nat) (c : Nat × Nat) :
    (process_wavefront num_threads thread_id width height).count (WAction.mark c) =
      if c.1 < height ∧ c.2 < width ∧ (c.1 + c.2) % num_threads = thread_id
      then 1 else 0 := by
  rw [process_wavefront, count_flatMap_eq]
  have heq : (ownedPixels num_threads thread_id width height).map
      (fun a => (pixelActions width height a).count (WAction.mark c)) =
      (ownedPixels num_threads thread_id width height).map
      (fun a => if a = c then 1 else 0) := by
    refine List.map_congr_left ?_
    intro a _
    exact count_mark_pixelActions width height c a
  rw [heq, sum_indicator_eq_count]
  rw [count_nodup_mem _ (ownedPixels_nodup _ _ _ _) c]
  simp [mem_ownedPixels]

theorem count_dep_worker (num_threads thread_id width height : Nat) (c : Nat × Nat)
    (k : Nat) :
    (process_wavefront num_threads thread_id width height).count (WAction.dep c k) =
      if (c.1 < height ∧ c.2 < width ∧ (c.1 + c.2) % num_threads = thread_id) ∧
         depGuard width height c k
      then 1 else 0 := by
  rw [process_wavefront, count_flatMap_eq]
  by_cases hg : depGuard width height c k
  · have heq : (ownedPixels num_threads thread_id width height).map
        (fun a => (pixelActions width height a).count (WAction.dep c k)) =
        (ownedPixels num_threads thread_id width height).map
        (fun a => if a = c then 1 else 0) := by
      refine List.map_congr_left ?_
      intro a _
      rw [count_dep_pixelActions width height c a k]
      by_cases ha : a = c
      · rw [if_pos ⟨ha, hg⟩, if_pos ha]
      · rw [if_neg (fun hh => ha hh.1), if_neg ha]
    rw [heq, sum_indicator_eq_count]
    rw [count_nodup_mem _ (ownedPixels_nodup _ _ _ _) c]
    simp [mem_ownedPixels, hg]
  · have heq : (ownedPixels num_threads thread_id width height).map
        (fun a => (pixelActions width height a).count (WAction.dep c k)) =
        (ownedPixels num_threads thread_id width height).map (fun _ => 0) := by
      refine List.map_congr_left ?_
      intro a _
      rw [count_dep_pixelActions width height c a k, if_neg (fun hh => hg hh.2)]
    rw [heq, if_neg (fun hh => hg hh.2)]
    simp

theorem count_proj_sum (n : Nat) (tr : List (Nat × WAction))
    (hn : ∀ p ∈ tr, p.1 < n) (a : WAction) :
    (tr.map Prod.snd).count a = ∑ t ∈ Finset.range n, (projThread t tr).count a := by
  induction tr with
  | nil => simp [projThread]
  | cons p tr ih =>
    have hp : p.1 < n := hn p (List.mem_cons_self _ _)
    have htr : ∀ q ∈ tr, q.1 < n := fun q hq => hn q (List.mem_cons_of_mem _ hq)
    have hproj : ∀ t, projThread t (p :: tr) =
        if p.1 = t then p.2 :: projThread t tr else projThread t tr := by
      intro t
      simp only [projThread, List.filter_cons]
      by_cases ht : p.1 = t
      · rw [if_pos (by simpa using ht), if_pos ht, List.map_cons]
      · rw [if_neg (by simpa using ht), if_neg ht]
    have hsum : ∀ t ∈ Finset.range n,
        (projThread t (p :: tr)).count a =
        (projThread t tr).count a + (if t = p.1 then (if a = p.2 then 1 else 0) else 0) := by
      intro t _
      rw [hproj t]
      by_cases ht : p.1 = t
      · rw [if_pos ht, if_pos ht.symm, List.count_cons]
        by_cases ha : a = p.2
        · simp [ha]
        · have hf : (p.2 == a) = false := by simpa using fun h => ha h.symm
          simp [ha, hf]
      · rw [if_neg ht, if_neg (fun hh => ht hh.symm), Nat.add_zero]
    rw [List.map_cons, List.count_cons, Finset.sum_congr rfl hsum,
      Finset.sum_add_distrib, Finset.sum_ite_eq' (Finset.range n) p.1
        (fun _ => if a = p.2 then 1 else 0), if_pos (Finset.mem_range.mpr hp),
      ih htr]
    by_cases ha : a = p.2
    · simp [ha]
    · have hf : (p.2 == a) = false := by simpa using fun h => ha h.symm
      simp [ha, hf]

theorem count_append_cons {α : Type} [DecidableEq α] (a : α) (s t : List α) :
    (s ++ a :: t).count a = s.count a + t.count a + 1 := by
  rw [List.count_append, List.count_cons_self, ← Nat.add_assoc]

theorem unique_middle {α : Type} [DecidableEq α] (a : α) :
    ∀ (s t s' t' : List α), s ++ a :: t = s' ++ a :: t' →
      (s ++ a :: t).count a ≤ 1 → s = s' ∧ t = t' := by
  intro s
  induction s with
  | nil =>
    intro t s' t' heq hcount
    cases s' with
    | nil =>
      simp only [List.nil_append] at heq
      exact ⟨rfl, (List.cons_inj_right a).mp heq⟩
    | cons b s'' =>
      exfalso
      simp only [List.nil_append, List.cons_append] at heq
      have hb : b = a := (List.cons.inj heq).1.symm
      subst hb
      have ht : t = s'' ++ b :: t' := (List.cons.inj heq).2
      rw [List.nil_append, List.count_cons_self, ht, count_append_cons] at hcount
      omega
  | cons c s ih =>
    intro t s' t' heq hcount
    cases s' with
    | nil =>
      exfalso
      simp only [List.nil_append, List.cons_append] at heq
      have hc : c = a := (List.cons.inj heq).1
      subst hc
      rw [List.cons_append, List.count_cons_self, count_append_cons] at hcount
      omega
    | cons c' s'' =>
      simp only [List.cons_append] at heq
      have hc : c = c' := (List.cons.inj heq).1
      have hrest : s ++ a :: t = s'' ++ a :: t' := (List.cons.inj heq).2
      have hcount' : (s ++ a :: t).count a ≤ 1 := by
        rw [List.cons_append, List.count_cons] at hcount
        omega
      obtain ⟨h1, h2⟩ := ih t s'' t' hrest hcount'
      exact ⟨by rw [hc, h1], h2⟩

theorem occBefore_comp {a b c : WAction} {es : List WAction}
    (h1 : OccBefore a b es) (h2 : OccBefore b c es) (hb : es.count b ≤ 1) :
    OccBefore a c es := by
  obtain ⟨u1, u2, u3, hu⟩ := h1
  obtain ⟨v1, v2, v3, hv⟩ := h2
  have he1 : es = (u1 ++ a :: u2) ++ b :: u3 := by simp [hu]
  have he2 : es = v1 ++ b :: (v2 ++ c :: v3) := by simp [hv]
  have hcnt : ((u1 ++ a :: u2) ++ b :: u3).count b ≤ 1 := by rw [← he1]; exact hb
  obtain ⟨hs, ht⟩ := unique_middle b (u1 ++ a :: u2) u3 v1 (v2 ++ c :: v3)
    (by rw [← he1, he2]) hcnt
  refine ⟨u1, u2 ++ b :: v2, v3, ?_⟩
  rw [he1, ht]
  simp

/-- If b occurs at most once, anything occurring before b occurs in every
decomposition cut at b. -/
theorem mem_left_of_occBefore {a b : WAction} {es P Q : List WAction}
    (h : OccBefore a b es) (hdec : es = P ++ b :: Q) (hb : es.count b ≤ 1) :
    a ∈ P := by
  obtain ⟨u1, u2, u3, hu⟩ := h
  have he1 : es = (u1 ++ a :: u2) ++ b :: u3 := by simp [hu]
  have hcnt : ((u1 ++ a :: u2) ++ b :: u3).count b ≤ 1 := by rw [← he1]; exact hb
  obtain ⟨hs, -⟩ := unique_middle b (u1 ++ a :: u2) u3 P Q (by rw [← he1, hdec]) hcnt
  rw [← hs]
  simp

theorem projThread_cons (t : Nat) (p : Nat × WAction) (tr : List (Nat × WAction)) :
    projThread t (p :: tr) =
      if p.1 = t then p.2 :: projThread t tr else projThread t tr := by
  simp only [projThread, List.filter_cons]
  by_cases ht : p.1 = t
  · rw [if_pos (by simpa using ht), if_pos ht, List.map_cons]
  · rw [if_neg (by simpa using ht), if_neg ht]

theorem projThread_split (t : Nat) :
    ∀ (tr : List (Nat × WAction)) (A B : List WAction),
      projThread t tr = A ++ B →
      ∃ tr1 tr2, tr = tr1 ++ tr2 ∧ projThread t tr1 = A ∧ projThread t tr2 = B := by
  intro tr
  induction tr with
  | nil =>
    intro A B h
    have h' : A ++ B = ([] : List WAction) := by simpa [projThread] using h.symm
    have hAB : A = [] ∧ B = [] := by
      cases A with
      | nil => exact ⟨rfl, by simpa using h'⟩
      | cons a A' => simp at h'
    obtain ⟨hA, hB⟩ := hAB
    subst hA; subst hB
    exact ⟨[], [], rfl, by simp [projThread], by simp [projThread]⟩
  | cons p tr ih =>
    intro A B h
    rw [projThread_cons] at h
    by_cases hp : p.1 = t
    · rw [if_pos hp] at h
      cases A with
      | nil =>
        refine ⟨[], p :: tr, rfl, by simp [projThread], ?_⟩
        rw [projThread_cons, if_pos hp]
        simpa using h
      | cons a A' =>
        have ha : p.2 = a := (List.cons.inj h).1
        obtain ⟨tr1, tr2, rfl, h1, h2⟩ := ih A' B (List.cons.inj h).2
        refine ⟨p :: tr1, tr2, rfl, ?_, h2⟩
        rw [projThread_cons, if_pos hp, h1, ha]
    · rw [if_neg hp] at h
      obtain ⟨tr1, tr2, rfl, h1, h2⟩ := ih A B h
      refine ⟨p :: tr1, tr2, rfl, ?_, h2⟩
      rw [projThread_cons, if_neg hp, h1]

theorem mem_projThread {t : Nat} {a : WAction} {tr : List (Nat × WAction)}
    (h : a ∈ projThread t tr) : (t, a) ∈ tr := by
  simp only [projThread, List.mem_map, List.mem_filter, decide_eq_true_eq] at h
  obtain ⟨p, ⟨hp, hpt⟩, hpa⟩ := h
  have hpe : p = (t, a) := by
    cases p with
    | mk p1 p2 => simp_all
  rw [← hpe]; exact hp

/-- Program order transfers to trace order: if action a comes before action b
in worker t's program, the trace contains (t,a) before (t,b). -/
theorem trace_order_of_program {n width height : Nat} {tr : List (Nat × WAction)}
    (t : Nat) (ht : t < n) (hv : ValidTrace n width height tr)
    {L1 L2 : List WAction} {a b : WAction}
    (hprog : process_wavefront n t width height = L1 ++ a :: L2) (hb : b ∈ L2) :
    ∃ tr1 mid tr3, tr = tr1 ++ (t, a) :: mid ++ (t, b) :: tr3 := by
  have hproj : projThread t tr = L1 ++ a :: L2 := by rw [hv.2.1 t ht, hprog]
  obtain ⟨u, v, rfl, hu, hvv⟩ := projThread_split t tr L1 (a :: L2) hproj
  obtain ⟨v1, v2, rfl, hv1, hv2⟩ := projThread_split t v [a] L2 (by simpa using hvv)
  have hav1 : (t, a) ∈ v1 := mem_projThread (a := a) (by rw [hv1]; simp)
  have hbv2 : (t, b) ∈ v2 := mem_projThread (a := b) (by rw [hv2]; exact hb)
  obtain ⟨p1, p2, hp⟩ := List.append_of_mem hav1
  obtain ⟨q1, q2, hq⟩ := List.append_of_mem hbv2
  refine ⟨u ++ p1, p2 ++ q1, q2, ?_⟩
  rw [hp, hq]
  simp

theorem occBefore_of_trace_order {tr : List (Nat × WAction)} {t : Nat} {a b : WAction}
    {tr1 mid tr3 : List (Nat × WAction)}
    (h : tr = tr1 ++ (t, a) :: mid ++ (t, b) :: tr3) :
    OccBefore a b (tr.map Prod.snd) := by
  refine ⟨tr1.map Prod.snd, mid.map Prod.snd, tr3.map Prod.snd, ?_⟩
  rw [h]; simp

theorem program_occBefore {n width height : Nat} {tr : List (Nat × WAction)}
    (t : Nat) (ht : t < n) (hv : ValidTrace n width height tr)
    {L1 L2 : List WAction} {a b : WAction}
    (hprog : process_wavefront n t width height = L1 ++ a :: L2) (hb : b ∈ L2) :
    OccBefore a b (tr.map Prod.snd) := by
  obtain ⟨tr1, mid, tr3, hdec⟩ := trace_order_of_program t ht hv hprog hb
  exact occBefore_of_trace_order hdec

theorem get_append_cons {α : Type} : ∀ (l1 : List α) (p : α) (l2 : List α)
    (h : l1.length < (l1 ++ p :: l2).length),
    (l1 ++ p :: l2).get ⟨l1.length, h⟩ = p := by
  intro l1
  induction l1 with
  | nil => intro p l2 h; rfl
  | cons a l1 ih =>
    intro p l2 h
    simp only [List.cons_append, List.length_cons, List.get_cons_succ]
    exact ih p l2 (by simpa using h)

theorem get_append_left_mem {α : Type} : ∀ (l1 l2 : List α) (j : Nat)
    (hj : j < l1.length) (h : j < (l1 ++ l2).length),
    (l1 ++ l2).get ⟨j, h⟩ ∈ l1 := by
  intro l1
  induction l1 with
  | nil => intro l2 j hj; simp at hj
  | cons a l1 ih =>
    intro l2 j hj h
    cases j with
    | zero => simp [List.cons_append]
    | succ j' =>
      simp only [List.cons_append, List.get_cons_succ]
      exact List.mem_cons_of_mem a (ih l2 j' (by simpa using hj) (by simpa using h))

/-- In a valid trace every completed wait on c is preceded by the mark of c. -/
theorem validTrace_wait_mark {n width height : Nat} {tr : List (Nat × WAction)}
    (hv : ValidTrace n width height tr) (tr1 : List (Nat × WAction))
    (p : Nat × WAction) (tr2 : List (Nat × WAction))
    (hdec : tr = tr1 ++ p :: tr2) (c : Nat × Nat)
    (hwait : p.2 = WAction.wait c) :
    WAction.mark c ∈ tr1.map Prod.snd := by
  subst hdec
  have hlen : tr1.length < (tr1 ++ p :: tr2).length := by simp
  have hget : (tr1 ++ p :: tr2).get ⟨tr1.length, hlen⟩ = p :=
    get_append_cons tr1 p tr2 hlen
  obtain ⟨j, hj, hmark⟩ := hv.2.2 ⟨tr1.length, hlen⟩ c (by rw [hget]; exact hwait)
  have hmem : (tr1 ++ p :: tr2).get j ∈ tr1 :=
    get_append_left_mem tr1 (p :: tr2) j.1 (by exact hj) j.2
  exact List.mem_map.mpr ⟨(tr1 ++ p :: tr2).get j, hmem, hmark⟩

theorem mem_depActions {width height : Nat} {c : Nat × Nat} {k : Nat}
    (hg : depGuard width height c k) : WAction.dep c k ∈ depActions width height c := by
  rcases k with _ | _ | _ | _ | k
  · simp only [depGuard] at hg
    simp [depActions, hg]
  · simp only [depGuard] at hg
    simp [depActions, hg.1, hg.2]
  · simp only [depGuard] at hg
    simp [depActions, hg]
  · simp only [depGuard] at hg
    simp [depActions, hg.1, hg.2]
  · simp only [depGuard] at hg

theorem trace_count_quant {n width height : Nat} {tr : List (Nat × WAction)}
    (hv : ValidTrace n width height tr) (hn : 0 < n) (c : Nat × Nat) :
    (tr.map Prod.snd).count (WAction.quant c) =
      if c.1 < height ∧ c.2 < width then 1 else 0 := by
  rw [count_proj_sum n tr hv.1]
  have hcong : ∀ t ∈ Finset.range n, (projThread t tr).count (WAction.quant c) =
      if (c.1 + c.2) % n = t then (if c.1 < height ∧ c.2 < width then 1 else 0)
      else 0 := by
    intro t ht'
    rw [hv.2.1 t (Finset.mem_range.mp ht'), count_quant_worker]
    split_ifs <;> (try rfl) <;> tauto
  rw [Finset.sum_congr rfl hcong,
    Finset.sum_ite_eq (Finset.range n) ((c.1 + c.2) % n) _,
    if_pos (Finset.mem_range.mpr (Nat.mod_lt _ hn))]

theorem trace_count_mark {n width height : Nat} {tr : List (Nat × WAction)}
    (hv : ValidTrace n width height tr) (hn : 0 < n) (c : Nat × Nat) :
    (tr.map Prod.snd).count (WAction.mark c) =
      if c.1 < height ∧ c.2 < width then 1 else 0 := by
  rw [count_proj_sum n tr hv.1]
  have hcong : ∀ t ∈ Finset.range n, (projThread t tr).count (WAction.mark c) =
      if (c.1 + c.2) % n = t then (if c.1 < height ∧ c.2 < width then 1 else 0)
      else 0 := by
    intro t ht'
    rw [hv.2.1 t (Finset.mem_range.mp ht'), count_mark_worker]
    split_ifs <;> (try rfl) <;> tauto
  rw [Finset.sum_congr rfl hcong,
    Finset.sum_ite_eq (Finset.range n) ((c.1 + c.2) % n) _,
    if_pos (Finset.mem_range.mpr (Nat.mod_lt _ hn))]

theorem trace_count_dep {n width height : Nat} {tr : List (Nat × WAction)}
    (hv : ValidTrace n width height tr) (hn : 0 < n) (c : Nat × Nat) (k : Nat) :
    (tr.map Prod.snd).count (WAction.dep c k) =
      if (c.1 < height ∧ c.2 < width) ∧ depGuard width height c k then 1 else 0 := by
  rw [count_proj_sum n tr hv.1]
  have hcong : ∀ t ∈ Finset.range n, (projThread t tr).count (WAction.dep c k) =
      if (c.1 + c.2) % n = t then
        (if (c.1 < height ∧ c.2 < width) ∧ depGuard width height c k then 1 else 0)
      else 0 := by
    intro t ht'
    rw [hv.2.1 t (Finset.mem_range.mp ht'), count_dep_worker]
    split_ifs <;> (try rfl) <;> tauto
  rw [Finset.sum_congr rfl hcong,
    Finset.sum_ite_eq (Finset.range n) ((c.1 + c.2) % n) _,
    if_pos (Finset.mem_range.mpr (Nat.mod_lt _ hn))]

theorem trace_count_quant_le {n width height : Nat} {tr : List (Nat × WAction)}
    (hv : ValidTrace n width height tr) (hn : 0 < n) (c : Nat × Nat) :
    (tr.map Prod.snd).count (WAction.quant c) ≤ 1 := by
  rw [trace_count_quant hv hn c]
  split_ifs <;> omega

theorem trace_count_mark_le {n width height : Nat} {tr : List (Nat × WAction)}
    (hv : ValidTrace n width height tr) (hn : 0 < n) (c : Nat × Nat) :
    (tr.map Prod.snd).count (WAction.mark c) ≤ 1 := by
  rw [trace_count_mark hv hn c]
  split_ifs <;> omega

theorem trace_count_dep_le {n width height : Nat} {tr : List (Nat × WAction)}
    (hv : ValidTrace n width height tr) (hn : 0 < n) (c : Nat × Nat) (k : Nat) :
    (tr.map Prod.snd).count (WAction.dep c k) ≤ 1 := by
  rw [trace_count_dep hv hn c k]
  split_ifs <;> omega

theorem quant_mem_trace {n width height : Nat} {tr : List (Nat × WAction)}
    (hv : ValidTrace n width height tr) (hn : 0 < n) {c : Nat × Nat}
    (hcy : c.1 < height) (hcx : c.2 < width) :
    WAction.quant c ∈ tr.map Prod.snd := by
  rw [← List.count_pos_iff, trace_count_quant hv hn c, if_pos ⟨hcy, hcx⟩]
  omega

theorem dep_mem_trace_inv {n width height : Nat} {tr : List (Nat × WAction)}
    (hv : ValidTrace n width height tr) (hn : 0 < n) {s : Nat × Nat} {k : Nat}
    (hmem : WAction.dep s k ∈ tr.map Prod.snd) :
    (s.1 < height ∧ s.2 < width) ∧ depGuard width height s k := by
  rw [← List.count_pos_iff, trace_count_dep hv hn s k] at hmem
  by_contra hc
  rw [if_neg hc] at hmem
  omega

theorem quant_mem_trace_inv {n width height : Nat} {tr : List (Nat × WAction)}
    (hv : ValidTrace n width height tr) (hn : 0 < n) {c : Nat × Nat}
    (hmem : WAction.quant c ∈ tr.map Prod.snd) :
    c.1 < height ∧ c.2 < width := by
  rw [← List.count_pos_iff, trace_count_quant hv hn c] at hmem
  by_contra hc
  rw [if_neg hc] at hmem
  omega

theorem program_block {n t width height : Nat} {c : Nat × Nat}
    (hmem : c ∈ ownedPixels n t width height) :
    ∃ F1 F2, process_wavefront n t width height =
      F1 ++ pixelActions width height c ++ F2 := by
  obtain ⟨o1, o2, ho⟩ := List.append_of_mem hmem
  refine ⟨o1.flatMap (pixelActions width height),
    o2.flatMap (pixelActions width height), ?_⟩
  rw [process_wavefront, ho]
  simp

theorem owned_thread {n width height : Nat} (hn : 0 < n) {c : Nat × Nat}
    (hcy : c.1 < height) (hcx : c.2 < width) :
    (c.1 + c.2) % n < n ∧ c ∈ ownedPixels n ((c.1 + c.2) % n) width height :=
  ⟨Nat.mod_lt _ hn,
    (mem_ownedPixels n ((c.1 + c.2) % n) width height c).mpr ⟨hcy, hcx, rfl⟩⟩

/-- If worker t's program reaches a wait on tgt before quantizing c, then in
any valid trace the mark of tgt occurs before the quantization of c. -/
theorem mark_before_quant_of_wait {n width height : Nat} {tr : List (Nat × WAction)}
    (hv : ValidTrace n width height tr) {t : Nat} (ht : t < n)
    {L1 L2 : List WAction} {tgt c : Nat × Nat}
    (hprog : process_wavefront n t width height = L1 ++ WAction.wait tgt :: L2)
    (hq : WAction.quant c ∈ L2) :
    OccBefore (WAction.mark tgt) (WAction.quant c) (tr.map Prod.snd) := by
  obtain ⟨tr1, mid, tr3, hdec⟩ := trace_order_of_program t ht hv hprog hq
  have hmark : WAction.mark tgt ∈ tr1.map Prod.snd :=
    validTrace_wait_mark hv tr1 (t, WAction.wait tgt)
      (mid ++ (t, WAction.quant c) :: tr3) (by rw [hdec]; simp) tgt rfl
  obtain ⟨m1, m2, hm⟩ := List.append_of_mem hmark
  refine ⟨m1, m2 ++ WAction.wait tgt :: mid.map Prod.snd, tr3.map Prod.snd, ?_⟩
  rw [hdec]
  simp only [List.map_append, List.map_cons]
  rw [hm]
  simp

theorem wait_tr_link {n width height : Nat} {tr : List (Nat × WAction)}
    (hv : ValidTrace n width height tr) (hn : 0 < n) {c : Nat × Nat}
    (hcy : c.1 < height) (hcx : c.2 < width) (hg : 0 < c.1 ∧ c.2 + 1 < width) :
    OccBefore (WAction.mark (c.1 - 1, c.2 + 1)) (WAction.quant c)
      (tr.map Prod.snd) := by
  obtain ⟨ht, hmem⟩ := owned_thread hn hcy hcx
  obtain ⟨F1, F2, hP⟩ := program_block hmem
  have hprog : process_wavefront n ((c.1 + c.2) % n) width height =
      F1 ++ WAction.wait (c.1 - 1, c.2 + 1) ::
        (((if 0 < c.2 then [WAction.wait (c.1, c.2 - 1)] else []) ++
          [WAction.quant c] ++ depActions width height c ++ [WAction.mark c]) ++ F2) := by
    rw [hP, pixelActions, if_pos hg]
    simp
  exact mark_before_quant_of_wait hv ht hprog (by simp)

theorem wait_left_link {n width height : Nat} {tr : List (Nat × WAction)}
    (hv : ValidTrace n width height tr) (hn : 0 < n) {c : Nat × Nat}
    (hcy : c.1 < height) (hcx : c.2 < width) (hg : 0 < c.2) :
    OccBefore (WAction.mark (c.1, c.2 - 1)) (WAction.quant c)
      (tr.map Prod.snd) := by
  obtain ⟨ht, hmem⟩ := owned_thread hn hcy hcx
  obtain ⟨F1, F2, hP⟩ := program_block hmem
  have hprog : process_wavefront n ((c.1 + c.2) % n) width height =
      (F1 ++ (if 0 < c.1 ∧ c.2 + 1 < width
        then [WAction.wait (c.1 - 1, c.2 + 1)] else [])) ++
      WAction.wait (c.1, c.2 - 1) ::
        (([WAction.quant c] ++ depActions width height c ++ [WAction.mark c]) ++ F2) := by
    rw [hP, pixelActions, if_pos hg]
    simp
  exact mark_before_quant_of_wait hv ht hprog (by simp)

theorem quant_before_mark_link {n width height : Nat} {tr : List (Nat × WAction)}
    (hv : ValidTrace n width height tr) (hn : 0 < n) {c : Nat × Nat}
    (hcy : c.1 < height) (hcx : c.2 < width) :
    OccBefore (WAction.quant c) (WAction.mark c) (tr.map Prod.snd) := by
  obtain ⟨ht, hmem⟩ := owned_thread hn hcy hcx
  obtain ⟨F1, F2, hP⟩ := program_block hmem
  have hprog : process_wavefront n ((c.1 + c.2) % n) width height =
      (F1 ++ (if 0 < c.1 ∧ c.2 + 1 < width
        then [WAction.wait (c.1 - 1, c.2 + 1)] else []) ++
        (if 0 < c.2 then [WAction.wait (c.1, c.2 - 1)] else [])) ++
      WAction.quant c :: (depActions width height c ++ WAction.mark c :: F2) := by
    rw [hP, pixelActions]
    simp
  exact program_occBefore _ ht hv hprog (by simp)

theorem quant_before_dep_link {n width height : Nat} {tr : List (Nat × WAction)}
    (hv : ValidTrace n width height tr) (hn : 0 < n) {c : Nat × Nat} {k : Nat}
    (hcy : c.1 < height) (hcx : c.2 < width) (hg : depGuard width height c k) :
    OccBefore (WAction.quant c) (WAction.dep c k) (tr.map Prod.snd) := by
  obtain ⟨ht, hmem⟩ := owned_thread hn hcy hcx
  obtain ⟨F1, F2, hP⟩ := program_block hmem
  have hprog : process_wavefront n ((c.1 + c.2) % n) width height =
      (F1 ++ (if 0 < c.1 ∧ c.2 + 1 < width
        then [WAction.wait (c.1 - 1, c.2 + 1)] else []) ++
        (if 0 < c.2 then [WAction.wait (c.1, c.2 - 1)] else [])) ++
      WAction.quant c :: (depActions width height c ++ WAction.mark c :: F2) := by
    rw [hP, pixelActions]
    simp
  exact program_occBefore _ ht hv hprog
    (List.mem_append_left _ (mem_depActions hg))

theorem dep_before_mark_link {n width height : Nat} {tr : List (Nat × WAction)}
    (hv : ValidTrace n width height tr) (hn : 0 < n) {c : Nat × Nat} {k : Nat}
    (hcy : c.1 < height) (hcx : c.2 < width) (hg : depGuard width height c k) :
    OccBefore (WAction.dep c k) (WAction.mark c) (tr.map Prod.snd) := by
  obtain ⟨ht, hmem⟩ := owned_thread hn hcy hcx
  obtain ⟨F1, F2, hP⟩ := program_block hmem
  obtain ⟨D1, D2, hD⟩ := List.append_of_mem (mem_depActions hg)
  have hprog : process_wavefront n ((c.1 + c.2) % n) width height =
      (F1 ++ (if 0 < c.1 ∧ c.2 + 1 < width
        then [WAction.wait (c.1 - 1, c.2 + 1)] else []) ++
        (if 0 < c.2 then [WAction.wait (c.1, c.2 - 1)] else []) ++
        WAction.quant c :: D1) ++
      WAction.dep c k :: (D2 ++ WAction.mark c :: F2) := by
    rw [hP, pixelActions, hD]
    simp
  exact program_occBefore _ ht hv hprog (by simp)

theorem mark_before_quant_top {n width height : Nat} {tr : List (Nat × WAction)}
    (hv : ValidTrace n width height tr) (hn : 0 < n) (hw : 2 ≤ width) {y x : Nat}
    (hy : y < height) (hx : x < width) (h0 : 0 < y) :
    OccBefore (WAction.mark (y - 1, x)) (WAction.quant (y, x)) (tr.map Prod.snd) := by
  by_cases hx0 : 0 < x
  · have h1 : OccBefore (WAction.mark (y - 1, x)) (WAction.quant (y, x - 1))
        (tr.map Prod.snd) := by
      have := wait_tr_link hv hn (c := (y, x - 1)) (by simpa using hy)
        (by simp; omega) (by simp; omega)
      simpa [show x - 1 + 1 = x from by omega] using this
    have h2 : OccBefore (WAction.quant (y, x - 1)) (WAction.mark (y, x - 1))
        (tr.map Prod.snd) :=
      quant_before_mark_link hv hn (c := (y, x - 1)) (by simpa using hy)
        (by simp; omega)
    have h3 : OccBefore (WAction.mark (y, x - 1)) (WAction.quant (y, x))
        (tr.map Prod.snd) := by
      have := wait_left_link hv hn (c := (y, x)) hy hx (by simpa using hx0)
      simpa using this
    exact occBefore_comp (occBefore_comp h1 h2 (trace_count_quant_le hv hn _)) h3
      (trace_count_mark_le hv hn _)
  · have hx0' : x = 0 := by omega
    subst hx0'
    have h1 : OccBefore (WAction.mark (y - 1, 0)) (WAction.quant (y - 1, 1))
        (tr.map Prod.snd) := by
      have := wait_left_link hv hn (c := (y - 1, 1)) (by simp; omega)
        (by simpa using hw) (by simp)
      simpa using this
    have h2 : OccBefore (WAction.quant (y - 1, 1)) (WAction.mark (y - 1, 1))
        (tr.map Prod.snd) :=
      quant_before_mark_link hv hn (c := (y - 1, 1)) (by simp; omega)
        (by simpa using hw)
    have h3 : OccBefore (WAction.mark (y - 1, 1)) (WAction.quant (y, 0))
        (tr.map Prod.snd) := by
      have := wait_tr_link hv hn (c := (y, 0)) hy (by omega) (by simp; omega)
      simpa using this
    exact occBefore_comp (occBefore_comp h1 h2 (trace_count_quant_le hv hn _)) h3
      (trace_count_mark_le hv hn _)

theorem mark_before_quant_topleft {n width height : Nat} {tr : List (Nat × WAction)}
    (hv : ValidTrace n width height tr) (hn : 0 < n) {y x : Nat}
    (hy : y < height) (hx : x < width) (h0y : 0 < y) (h0x : 0 < x) :
    OccBefore (WAction.mark (y - 1, x - 1)) (WAction.quant (y, x))
      (tr.map Prod.snd) := by
  have h1 : OccBefore (WAction.mark (y - 1, x - 1)) (WAction.quant (y - 1, x))
      (tr.map Prod.snd) := by
    have := wait_left_link hv hn (c := (y - 1, x)) (by simp; omega) (by simpa using hx)
      (by simpa using h0x)
    simpa using this
  have h2 : OccBefore (WAction.quant (y - 1, x)) (WAction.mark (y - 1, x))
      (tr.map Prod.snd) :=
    quant_before_mark_link hv hn (c := (y - 1, x)) (by simp; omega) (by simpa using hx)
  have h3 : OccBefore (WAction.mark (y - 1, x)) (WAction.quant (y, x - 1))
      (tr.map Prod.snd) := by
    have := wait_tr_link hv hn (c := (y, x - 1)) (by simpa using hy) (by simp; omega)
      (by simp; omega)
    simpa [show x - 1 + 1 = x from by omega] using this
  have h4 : OccBefore (WAction.quant (y, x - 1)) (WAction.mark (y, x - 1))
      (tr.map Prod.snd) :=
    quant_before_mark_link hv hn (c := (y, x - 1)) (by simpa using hy) (by simp; omega)
  have h5 : OccBefore (WAction.mark (y, x - 1)) (WAction.quant (y, x))
      (tr.map Prod.snd) := by
    have := wait_left_link hv hn (c := (y, x)) hy hx (by simpa using h0x)
    simpa using this
  exact occBefore_comp
    (occBefore_comp
      (occBefore_comp (occBefore_comp h1 h2 (trace_count_quant_le hv hn _)) h3
        (trace_count_mark_le hv hn _))
      h4 (trace_count_quant_le hv hn _))
    h5 (trace_count_mark_le hv hn _)

/-- The central ordering theorem: in any valid trace on an image of width at
least 2, every deposit into a cell from one of its four raster predecessors
occurs strictly before the cell's own quantization step. -/
theorem deps_in_prefix {n width height : Nat} {tr : List (Nat × WAction)}
    (hv : ValidTrace n width height tr) (hn : 0 < n) (hw : 2 ≤ width) {y x : Nat}
    (hy : y < height) (hx : x < width) {P Q : List WAction}
    (hdec : tr.map Prod.snd = P ++ WAction.quant (y, x) :: Q) :
    (0 < x → WAction.dep (y, x - 1) 0 ∈ P) ∧
    ((0 < y ∧ x + 1 < width) → WAction.dep (y - 1, x + 1) 1 ∈ P) ∧
    (0 < y → WAction.dep (y - 1, x) 2 ∈ P) ∧
    ((0 < y ∧ 0 < x) → WAction.dep (y - 1, x - 1) 3 ∈ P) := by
  have hqcnt : (tr.map Prod.snd).count (WAction.quant (y, x)) ≤ 1 :=
    trace_count_quant_le hv hn _
  refine ⟨?_, ?_, ?_, ?_⟩
  · intro h0x
    have hg : depGuard width height (y, x - 1) 0 := by simp only [depGuard]; omega
    have hdm : OccBefore (WAction.dep (y, x - 1) 0) (WAction.mark (y, x - 1))
        (tr.map Prod.snd) :=
      dep_before_mark_link hv hn (by simpa using hy) (by simp; omega) hg
    have hmq : OccBefore (WAction.mark (y, x - 1)) (WAction.quant (y, x))
        (tr.map Prod.snd) := by
      have := wait_left_link hv hn (c := (y, x)) hy hx (by simpa using h0x)
      simpa using this
    exact mem_left_of_occBefore
      (occBefore_comp hdm hmq (trace_count_mark_le hv hn _)) hdec hqcnt
  · rintro ⟨h0y, hx1⟩
    have hg : depGuard width height (y - 1, x + 1) 1 := by simp only [depGuard]; omega
    have hdm : OccBefore (WAction.dep (y - 1, x + 1) 1) (WAction.mark (y - 1, x + 1))
        (tr.map Prod.snd) :=
      dep_before_mark_link hv hn (by simp; omega) (by simpa using hx1) hg
    have hmq : OccBefore (WAction.mark (y - 1, x + 1)) (WAction.quant (y, x))
        (tr.map Prod.snd) := by
      have := wait_tr_link hv hn (c := (y, x)) hy hx (by simp; omega)
      simpa using this
    exact mem_left_of_occBefore
      (occBefore_comp hdm hmq (trace_count_mark_le hv hn _)) hdec hqcnt
  · intro h0y
    have hg : depGuard width height (y - 1, x) 2 := by simp only [depGuard]; omega
    have hdm : OccBefore (WAction.dep (y - 1, x) 2) (WAction.mark (y - 1, x))
        (tr.map Prod.snd) :=
      dep_before_mark_link hv hn (by simp; omega) (by simpa using hx) hg
    have hmq : OccBefore (WAction.mark (y - 1, x)) (WAction.quant (y, x))
        (tr.map Prod.snd) :=
      mark_before_quant_top hv hn hw hy hx h0y
    exact mem_left_of_occBefore
      (occBefore_comp hdm hmq (trace_count_mark_le hv hn _)) hdec hqcnt
  · rintro ⟨h0y, h0x⟩
    have hg : depGuard width height (y - 1, x - 1) 3 := by simp only [depGuard]; omega
    have hdm : OccBefore (WAction.dep (y - 1, x - 1) 3) (WAction.mark (y - 1, x - 1))
        (tr.map Prod.snd) :=
      dep_before_mark_link hv hn (by simp; omega) (by simp; omega) hg
    have hmq : OccBefore (WAction.mark (y - 1, x - 1)) (WAction.quant (y, x))
        (tr.map Prod.snd) :=
      mark_before_quant_topleft hv hn hy hx h0y h0x
    exact mem_left_of_occBefore
      (occBefore_comp hdm hmq (trace_count_mark_le hv hn _)) hdec hqcnt

theorem dval_nil (width : Nat) (input : Nat → Nat → Int) (y x : Nat) :
    dval width input [] y x = input y x := by
  rw [dval]
  simp

theorem dval_eq_sval (width : Nat) (input : Nat → Nat → Int) {y x : Nat}
    {P : List WAction}
    (h7 : 0 < x → WAction.dep (y, x - 1) 0 ∈ P)
    (h3 : (0 < y ∧ x + 1 < width) → WAction.dep (y - 1, x + 1) 1 ∈ P)
    (h5 : 0 < y → WAction.dep (y - 1, x) 2 ∈ P)
    (h1 : (0 < y ∧ 0 < x) → WAction.dep (y - 1, x - 1) 3 ∈ P)
    (habs : ¬ (x + 1 < width) → WAction.dep (y - 1, x + 1) 1 ∉ P) :
    dval width input P y x = sval width input y x := by
  rw [dval, sval_eq]
  have c7 : (0 < x ∧ WAction.dep (y, x - 1) 0 ∈ P) ↔ 0 < x :=
    ⟨fun h => h.1, fun h => ⟨h, h7 h⟩⟩
  have c3 : (0 < y ∧ WAction.dep (y - 1, x + 1) 1 ∈ P) ↔ (0 < y ∧ x + 1 < width) := by
    constructor
    · rintro ⟨hy, hmem⟩
      refine ⟨hy, ?_⟩
      by_contra hxw
      exact habs hxw hmem
    · rintro ⟨hy, hxw⟩
      exact ⟨hy, h3 ⟨hy, hxw⟩⟩
  have c5 : (0 < y ∧ WAction.dep (y - 1, x) 2 ∈ P) ↔ 0 < y :=
    ⟨fun h => h.1, fun h => ⟨h, h5 h⟩⟩
  have c1 : ((0 < y ∧ 0 < x) ∧ WAction.dep (y - 1, x - 1) 3 ∈ P) ↔ (0 < y ∧ 0 < x) :=
    ⟨fun h => h.1, fun h => ⟨h, h1 h⟩⟩
  rw [if_congr c7 rfl rfl, if_congr c3 rfl rfl, if_congr c5 rfl rfl,
    if_congr c1 rfl rfl]

theorem mem_append_singleton_of_ne {α : Type} {a e : α} (hne : a ≠ e) (P : List α) :
    a ∈ P ++ [e] ↔ a ∈ P := by
  simp only [List.mem_append, List.mem_singleton]
  constructor
  · rintro (h | h)
    · exact h
    · exact absurd h hne
  · exact Or.inl

theorem dval_append_irrelevant (width : Nat) (input : Nat → Nat → Int)
    (P : List WAction) (e : WAction) (hne : ∀ s k, WAction.dep s k ≠ e) (y x : Nat) :
    dval width input (P ++ [e]) y x = dval width input P y x := by
  rw [dval, dval]
  rw [if_congr (and_congr_right fun _ => mem_append_singleton_of_ne (hne _ _) P) rfl rfl,
    if_congr (and_congr_right fun _ => mem_append_singleton_of_ne (hne _ _) P) rfl rfl,
    if_congr (and_congr_right fun _ => mem_append_singleton_of_ne (hne _ _) P) rfl rfl,
    if_congr (and_congr_right fun _ => mem_append_singleton_of_ne (hne _ _) P) rfl rfl]

theorem not_mem_left_of_decomp {a : WAction} {es P Q : List WAction}
    (hdec : es = P ++ a :: Q) (hcnt : es.count a ≤ 1) : a ∉ P := by
  intro hmem
  rw [hdec, count_append_cons] at hcnt
  have hpos : 0 < P.count a := List.count_pos_iff.mpr hmem
  omega

theorem dval_append_dep0 (width : Nat) (input : Nat → Nat → Int) {c : Nat × Nat}
    {P : List WAction} (hnot : WAction.dep c 0 ∉ P) (y x : Nat) :
    dval width input (P ++ [WAction.dep c 0]) y x =
      dval width input P y x +
      (if y = c.1 ∧ x = c.2 + 1
       then floor_divide (qerr (sval width input c.1 c.2) * 7) 16 else 0) := by
  rw [dval, dval]
  have hQ : (0 < x ∧ WAction.dep (y, x - 1) 0 ∈ P ++ [WAction.dep c 0]) ↔
      (0 < x ∧ WAction.dep (y, x - 1) 0 ∈ P) ∨ (y = c.1 ∧ x = c.2 + 1) := by
    constructor
    · rintro ⟨hx0, hmem⟩
      rcases List.mem_append.mp hmem with h | h
      · exact Or.inl ⟨hx0, h⟩
      · right
        obtain ⟨hpair, -⟩ := WAction.dep.inj (List.mem_singleton.mp h)
        have h1 : y = c.1 := congrArg Prod.fst hpair
        have h2 : x - 1 = c.2 := congrArg Prod.snd hpair
        exact ⟨h1, by omega⟩
    · rintro (⟨hx0, hmem⟩ | ⟨hy1, hx1⟩)
      · exact ⟨hx0, List.mem_append.mpr (Or.inl hmem)⟩
      · have hpair : ((y, x - 1) : Nat × Nat) = c := by
          have he : ((y, x - 1) : Nat × Nat) = (c.1, c.2) := by
            rw [Prod.mk.injEq]
            exact ⟨hy1, by omega⟩
          simpa using he
        refine ⟨by omega, List.mem_append.mpr (Or.inr ?_)⟩
        rw [hpair]
        exact List.mem_singleton_self _
  have hdisj : ¬ ((0 < x ∧ WAction.dep (y, x - 1) 0 ∈ P) ∧
      (y = c.1 ∧ x = c.2 + 1)) := by
    rintro ⟨⟨hx0, hmem⟩, hy1, hx1⟩
    apply hnot
    have hpair : ((y, x - 1) : Nat × Nat) = c := by
      have he : ((y, x - 1) : Nat × Nat) = (c.1, c.2) := by
        rw [Prod.mk.injEq]
        exact ⟨hy1, by omega⟩
      simpa using he
    rwa [hpair] at hmem
  have hval : (y = c.1 ∧ x = c.2 + 1) →
      term7 width input y x =
        floor_divide (qerr (sval width input c.1 c.2) * 7) 16 := by
    rintro ⟨rfl, rfl⟩
    rw [term7]
    simp
  rw [← ite_flip hQ hdisj hval,
    if_congr (and_congr_right fun _ =>
      mem_append_singleton_of_ne (by simp) P) rfl rfl,
    if_congr (and_congr_right fun _ =>
      mem_append_singleton_of_ne (by simp) P) rfl rfl,
    if_congr (and_congr_right fun _ =>
      mem_append_singleton_of_ne (by simp) P) rfl rfl]
  ring

theorem dval_append_dep1 (width : Nat) (input : Nat → Nat → Int) {c : Nat × Nat}
    {P : List WAction} (hnot : WAction.dep c 1 ∉ P) (hc2 : 0 < c.2) (y x : Nat) :
    dval width input (P ++ [WAction.dep c 1]) y x =
      dval width input P y x +
      (if y = c.1 + 1 ∧ x = c.2 - 1
       then floor_divide (qerr (sval width input c.1 c.2) * 3) 16 else 0) := by
  rw [dval, dval]
  have hQ : (0 < y ∧ WAction.dep (y - 1, x + 1) 1 ∈ P ++ [WAction.dep c 1]) ↔
      (0 < y ∧ WAction.dep (y - 1, x + 1) 1 ∈ P) ∨ (y = c.1 + 1 ∧ x = c.2 - 1) := by
    constructor
    · rintro ⟨hy0, hmem⟩
      rcases List.mem_append.mp hmem with h | h
      · exact Or.inl ⟨hy0, h⟩
      · right
        obtain ⟨hpair, -⟩ := WAction.dep.inj (List.mem_singleton.mp h)
        have h1 : y - 1 = c.1 := congrArg Prod.fst hpair
        have h2 : x + 1 = c.2 := congrArg Prod.snd hpair
        exact ⟨by omega, by omega⟩
    · rintro (⟨hy0, hmem⟩ | ⟨hy1, hx1⟩)
      · exact ⟨hy0, List.mem_append.mpr (Or.inl hmem)⟩
      · have hpair : ((y - 1 : Nat), x + 1) = c := by
          have he : ((y - 1 : Nat), x + 1) = (c.1, c.2) := by
            rw [Prod.mk.injEq]
            exact ⟨by omega, by omega⟩
          simpa using he
        refine ⟨by omega, List.mem_append.mpr (Or.inr ?_)⟩
        rw [hpair]
        exact List.mem_singleton_self _
  have hdisj : ¬ ((0 < y ∧ WAction.dep (y - 1, x + 1) 1 ∈ P) ∧
      (y = c.1 + 1 ∧ x = c.2 - 1)) := by
    rintro ⟨⟨hy0, hmem⟩, hy1, hx1⟩
    apply hnot
    have hpair : ((y - 1, x + 1) : Nat × Nat) = c := by
      have he : ((y - 1, x + 1) : Nat × Nat) = (c.1, c.2) := by
        rw [Prod.mk.injEq]
        exact ⟨by omega, by omega⟩
      simpa using he
    rwa [hpair] at hmem
  have hval : (y = c.1 + 1 ∧ x = c.2 - 1) →
      term3 width input y x =
        floor_divide (qerr (sval width input c.1 c.2) * 3) 16 := by
    rintro ⟨rfl, rfl⟩
    rw [term3, show c.1 + 1 - 1 = c.1 from by omega,
      show c.2 - 1 + 1 = c.2 from by omega]
  rw [← ite_flip hQ hdisj hval,
    if_congr (and_congr_right fun _ =>
      mem_append_singleton_of_ne (by simp) P) rfl rfl,
    if_congr (and_congr_right fun _ =>
      mem_append_singleton_of_ne (by simp) P) rfl rfl,
    if_congr (and_congr_right fun _ =>
      mem_append_singleton_of_ne (by simp) P) rfl rfl]
  ring

theorem dval_append_dep2 (width : Nat) (input : Nat → Nat → Int) {c : Nat × Nat}
    {P : List WAction} (hnot : WAction.dep c 2 ∉ P) (y x : Nat) :
    dval width input (P ++ [WAction.dep c 2]) y x =
      dval width input P y x +
      (if y = c.1 + 1 ∧ x = c.2
       then floor_divide (qerr (sval width input c.1 c.2) * 5) 16 else 0) := by
  rw [dval, dval]
  have hQ : (0 < y ∧ WAction.dep (y - 1, x) 2 ∈ P ++ [WAction.dep c 2]) ↔
      (0 < y ∧ WAction.dep (y - 1, x) 2 ∈ P) ∨ (y = c.1 + 1 ∧ x = c.2) := by
    constructor
    · rintro ⟨hy0, hmem⟩
      rcases List.mem_append.mp hmem with h | h
      · exact Or.inl ⟨hy0, h⟩
      · right
        obtain ⟨hpair, -⟩ := WAction.dep.inj (List.mem_singleton.mp h)
        have h1 : y - 1 = c.1 := congrArg Prod.fst hpair
        have h2 : x = c.2 := congrArg Prod.snd hpair
        exact ⟨by omega, h2⟩
    · rintro (⟨hy0, hmem⟩ | ⟨hy1, hx1⟩)
      · exact ⟨hy0, List.mem_append.mpr (Or.inl hmem)⟩
      · have hpair : ((y - 1 : Nat), x) = c := by
          have he : ((y - 1 : Nat), x) = (c.1, c.2) := by
            rw [Prod.mk.injEq]
            exact ⟨by omega, hx1⟩
          simpa using he
        refine ⟨by omega, List.mem_append.mpr (Or.inr ?_)⟩
        rw [hpair]
        exact List.mem_singleton_self _
  have hdisj : ¬ ((0 < y ∧ WAction.dep (y - 1, x) 2 ∈ P) ∧
      (y = c.1 + 1 ∧ x = c.2)) := by
    rintro ⟨⟨hy0, hmem⟩, hy1, hx1⟩
    apply hnot
    have hpair : ((y - 1, x) : Nat × Nat) = c := by
      have he : ((y - 1, x) : Nat × Nat) = (c.1, c.2) := by
        rw [Prod.mk.injEq]
        exact ⟨by omega, hx1⟩
      simpa using he
    rwa [hpair] at hmem
  have hval : (y = c.1 + 1 ∧ x = c.2) →
      term5 width input y x =
        floor_divide (qerr (sval width input c.1 c.2) * 5) 16 := by
    rintro ⟨rfl, rfl⟩
    rw [term5, show c.1 + 1 - 1 = c.1 from by omega]
  rw [← ite_flip hQ hdisj hval,
    if_congr (and_congr_right fun _ =>
      mem_append_singleton_of_ne (by simp) P) rfl rfl,
    if_congr (and_congr_right fun _ =>
      mem_append_singleton_of_ne (by simp) P) rfl rfl,
    if_congr (and_congr_right fun _ =>
      mem_append_singleton_of_ne (by simp) P) rfl rfl]
  ring

theorem dval_append_dep3 (width : Nat) (input : Nat → Nat → Int) {c : Nat × Nat}
    {P : List WAction} (hnot : WAction.dep c 3 ∉ P) (y x : Nat) :
    dval width input (P ++ [WAction.dep c 3]) y x =
      dval width input P y x +
      (if y = c.1 + 1 ∧ x = c.2 + 1
       then floor_divide (qerr (sval width input c.1 c.2) * 1) 16 else 0) := by
  rw [dval, dval]
  have hQ : ((0 < y ∧ 0 < x) ∧ WAction.dep (y - 1, x - 1) 3 ∈ P ++ [WAction.dep c 3]) ↔
      ((0 < y ∧ 0 < x) ∧ WAction.dep (y - 1, x - 1) 3 ∈ P) ∨
        (y = c.1 + 1 ∧ x = c.2 + 1) := by
    constructor
    · rintro ⟨⟨hy0, hx0⟩, hmem⟩
      rcases List.mem_append.mp hmem with h | h
      · exact Or.inl ⟨⟨hy0, hx0⟩, h⟩
      · right
        obtain ⟨hpair, -⟩ := WAction.dep.inj (List.mem_singleton.mp h)
        have h1 : y - 1 = c.1 := congrArg Prod.fst hpair
        have h2 : x - 1 = c.2 := congrArg Prod.snd hpair
        exact ⟨by omega, by omega⟩
    · rintro (⟨hy0, hmem⟩ | ⟨hy1, hx1⟩)
      · exact ⟨hy0, List.mem_append.mpr (Or.inl hmem)⟩
      · have hpair : ((y - 1 : Nat), x - 1) = c := by
          have he : ((y - 1 : Nat), x - 1) = (c.1, c.2) := by
            rw [Prod.mk.injEq]
            exact ⟨by omega, by omega⟩
          simpa using he
        refine ⟨⟨by omega, by omega⟩, List.mem_append.mpr (Or.inr ?_)⟩
        rw [hpair]
        exact List.mem_singleton_self _
  have hdisj : ¬ (((0 < y ∧ 0 < x) ∧ WAction.dep (y - 1, x - 1) 3 ∈ P) ∧
      (y = c.1 + 1 ∧ x = c.2 + 1)) := by
    rintro ⟨⟨hy0, hmem⟩, hy1, hx1⟩
    apply hnot
    have hpair : ((y - 1, x - 1) : Nat × Nat) = c := by
      have he : ((y - 1, x - 1) : Nat × Nat) = (c.1, c.2) := by
        rw [Prod.mk.injEq]
        exact ⟨by omega, by omega⟩
      simpa using he
    rwa [hpair] at hmem
  have hval : (y = c.1 + 1 ∧ x = c.2 + 1) →
      term1 width input y x =
        floor_divide (qerr (sval width input c.1 c.2) * 1) 16 := by
    rintro ⟨rfl, rfl⟩
    rw [term1, show c.1 + 1 - 1 = c.1 from by omega,
      show c.2 + 1 - 1 = c.2 from by omega]
  rw [← ite_flip hQ hdisj hval,
    if_congr (and_congr_right fun _ =>
      mem_append_singleton_of_ne (by simp) P) rfl rfl,
    if_congr (and_congr_right fun _ =>
      mem_append_singleton_of_ne (by simp) P) rfl rfl,
    if_congr (and_congr_right fun _ =>
      mem_append_singleton_of_ne (by simp) P) rfl rfl]
  ring

theorem mtInv_nil (width : Nat) (input : Nat → Nat → Int) : MTInv width input [] := by
  refine ⟨fun y x => ?_, fun y x => ?_, fun y x => ?_⟩
  · rw [dval_nil]; rfl
  · simp [runMT, initMT]
  · simp [runMT, initMT]

theorem runMT_append_singleton (input : Nat → Nat → Int) (P : List WAction)
    (e : WAction) : runMT input (P ++ [e]) = mtStep (runMT input P) e := by
  rw [runMT, runMT, List.foldl_append]
  rfl

theorem mtStep_wait (st : MTState) (c : Nat × Nat) :
    mtStep st (WAction.wait c) = st := rfl

theorem mtStep_mark_work (st : MTState) (c : Nat × Nat) :
    (mtStep st (WAction.mark c)).work = st.work := rfl

theorem mtStep_mark_out (st : MTState) (c : Nat × Nat) :
    (mtStep st (WAction.mark c)).out = st.out := rfl

theorem mtStep_mark_errv (st : MTState) (c : Nat × Nat) :
    (mtStep st (WAction.mark c)).errv = st.errv := rfl

theorem mtStep_quant_work (st : MTState) (c : Nat × Nat) :
    (mtStep st (WAction.quant c)).work = st.work := rfl

theorem mtStep_quant_out (st : MTState) (c : Nat × Nat) :
    (mtStep st (WAction.quant c)).out =
      upd2 st.out c.1 c.2 (some (qbit (st.work c.1 c.2))) := rfl

theorem mtStep_quant_errv (st : MTState) (c : Nat × Nat) :
    (mtStep st (WAction.quant c)).errv =
      upd2 st.errv c.1 c.2 (qerr (st.work c.1 c.2)) := rfl

theorem mtStep_dep_work (st : MTState) (c : Nat × Nat) (k : Nat) :
    (mtStep st (WAction.dep c k)).work =
      deposit st.work (depTarget c k).1 (depTarget c k).2
        (floor_divide (st.errv c.1 c.2 * depWeight k) 16) := rfl

theorem mtStep_dep_out (st : MTState) (c : Nat × Nat) (k : Nat) :
    (mtStep st (WAction.dep c k)).out = st.out := rfl

theorem mtStep_dep_errv (st : MTState) (c : Nat × Nat) (k : Nat) :
    (mtStep st (WAction.dep c k)).errv = st.errv := rfl

theorem mtInv_step {n width height : Nat} {tr : List (Nat × WAction)}
    (hv : ValidTrace n width height tr) (hn : 0 < n) (hw : 2 ≤ width)
    (input : Nat → Nat → Int) {P Q : List WAction} {e : WAction}
    (hes : tr.map Prod.snd = P ++ e :: Q) (h : MTInv width input P) :
    MTInv width input (P ++ [e]) := by
  obtain ⟨hW, hO, hE⟩ := h
  have hrun : runMT input (P ++ [e]) = mtStep (runMT input P) e :=
    runMT_append_singleton input P e
  have hemem : e ∈ tr.map Prod.snd := by rw [hes]; simp
  cases e with
  | wait c =>
    refine ⟨fun y x => ?_, fun y x => ?_, fun y x => ?_⟩
    · rw [hrun, mtStep_wait,
        dval_append_irrelevant width input P _ (fun s k => by simp) y x]
      exact hW y x
    · rw [hrun, mtStep_wait,
        if_congr (mem_append_singleton_of_ne (by simp) P) rfl rfl]
      exact hO y x
    · rw [hrun, mtStep_wait,
        if_congr (mem_append_singleton_of_ne (by simp) P) rfl rfl]
      exact hE y x
  | mark c =>
    refine ⟨fun y x => ?_, fun y x => ?_, fun y x => ?_⟩
    · rw [hrun, mtStep_mark_work,
        dval_append_irrelevant width input P _ (fun s k => by simp) y x]
      exact hW y x
    · rw [hrun, mtStep_mark_out,
        if_congr (mem_append_singleton_of_ne (by simp) P) rfl rfl]
      exact hO y x
    · rw [hrun, mtStep_mark_errv,
        if_congr (mem_append_singleton_of_ne (by simp) P) rfl rfl]
      exact hE y x
  | quant c =>
    have hcb := quant_mem_trace_inv hv hn (c := c) hemem
    have hdecq : tr.map Prod.snd = P ++ WAction.quant (c.1, c.2) :: Q := hes
    obtain ⟨hd7, hd3, hd5, hd1⟩ := deps_in_prefix hv hn hw hcb.1 hcb.2 hdecq
    have habs : ¬ (c.2 + 1 < width) → WAction.dep (c.1 - 1, c.2 + 1) 1 ∉ P := by
      intro hxw hmem
      have hmem' : WAction.dep (c.1 - 1, c.2 + 1) 1 ∈ tr.map Prod.snd := by
        rw [hes]; exact List.mem_append_left _ hmem
      exact hxw (dep_mem_trace_inv hv hn hmem').1.2
    have hval : dval width input P c.1 c.2 = sval width input c.1 c.2 :=
      dval_eq_sval width input hd7 hd3 hd5 hd1 habs
    have hwork : (runMT input P).work c.1 c.2 = sval width input c.1 c.2 := by
      rw [hW c.1 c.2, hval]
    refine ⟨fun y x => ?_, fun y x => ?_, fun y x => ?_⟩
    · rw [hrun, mtStep_quant_work,
        dval_append_irrelevant width input P _ (fun s k => by simp) y x]
      exact hW y x
    · rw [hrun, mtStep_quant_out]
      by_cases hyx : y = c.1 ∧ x = c.2
      · obtain ⟨h1, h2⟩ := hyx; subst h1; subst h2
        rw [upd2_same, hwork,
          if_pos (List.mem_append.mpr (Or.inr (List.mem_singleton_self _)))]
      · have hne : WAction.quant (y, x) ≠ WAction.quant c := by
          intro hq
          have hp := WAction.quant.inj hq
          exact hyx ⟨congrArg Prod.fst hp, congrArg Prod.snd hp⟩
        rw [upd2_ne _ _ _ _ _ _ hyx,
          if_congr (mem_append_singleton_of_ne hne P) rfl rfl]
        exact hO y x
    · rw [hrun, mtStep_quant_errv]
      by_cases hyx : y = c.1 ∧ x = c.2
      · obtain ⟨h1, h2⟩ := hyx; subst h1; subst h2
        rw [upd2_same, hwork,
          if_pos (List.mem_append.mpr (Or.inr (List.mem_singleton_self _)))]
      · have hne : WAction.quant (y, x) ≠ WAction.quant c := by
          intro hq
          have hp := WAction.quant.inj hq
          exact hyx ⟨congrArg Prod.fst hp, congrArg Prod.snd hp⟩
        rw [upd2_ne _ _ _ _ _ _ hyx,
          if_congr (mem_append_singleton_of_ne hne P) rfl rfl]
        exact hE y x
  | dep c k =>
    obtain ⟨⟨hcy, hcx⟩, hguard⟩ := dep_mem_trace_inv hv hn (s := c) (k := k) hemem
    have hnot : WAction.dep c k ∉ P :=
      not_mem_left_of_decomp hes (trace_count_dep_le hv hn c k)
    have hqP : WAction.quant c ∈ P :=
      mem_left_of_occBefore (quant_before_dep_link hv hn hcy hcx hguard) hes
        (trace_count_dep_le hv hn c k)
    have herr : (runMT input P).errv c.1 c.2 = qerr (sval width input c.1 c.2) := by
      rw [hE c.1 c.2, if_pos hqP]
    refine ⟨fun y x => ?_, fun y x => ?_, fun y x => ?_⟩
    · rw [hrun, mtStep_dep_work, deposit_eval, hW y x, herr]
      rcases k with _ | _ | _ | _ | k
      · rw [dval_append_dep0 width input hnot y x]
        simp only [depTarget, depWeight]
      · rw [dval_append_dep1 width input hnot hguard.2 y x]
        simp only [depTarget, depWeight]
      · rw [dval_append_dep2 width input hnot y x]
        simp only [depTarget, depWeight]
      · rw [dval_append_dep3 width input hnot y x]
        simp only [depTarget, depWeight]
      · simp only [depGuard] at hguard
    · rw [hrun, mtStep_dep_out,
        if_congr (mem_append_singleton_of_ne (by simp) P) rfl rfl]
      exact hO y x
    · rw [hrun, mtStep_dep_errv,
        if_congr (mem_append_singleton_of_ne (by simp) P) rfl rfl]
      exact hE y x

theorem mtInv_all {n width height : Nat} {tr : List (Nat × WAction)}
    (hv : ValidTrace n width height tr) (hn : 0 < n) (hw : 2 ≤ width)
    (input : Nat → Nat → Int) :
    ∀ (Q P : List WAction), tr.map Prod.snd = P ++ Q → MTInv width input P →
      MTInv width input (tr.map Prod.snd) := by
  intro Q
  induction Q with
  | nil =>
    intro P hdec h
    rw [List.append_nil] at hdec
    rwa [hdec]
  | cons e Q ih =>
    intro P hdec h
    exact ih (P ++ [e]) (by rw [hdec]; simp) (mtInv_step hv hn hw input hdec h)

/-- Final output of any valid wavefront execution on an image of width ≥ 2:
every in-bounds cell holds the quantized bit of its serial reference value,
every out-of-bounds cell is untouched. -/
theorem runMT_out {n width height : Nat} {tr : List (Nat × WAction)}
    (hv : ValidTrace n width height tr) (hn : 0 < n) (hw : 2 ≤ width)
    (input : Nat → Nat → Int) (y x : Nat) :
    (runMT input (tr.map Prod.snd)).out y x =
      if y < height ∧ x < width then some (qbit (sval width input y x)) else none := by
  have hinv := mtInv_all hv hn hw input (tr.map Prod.snd) [] (by simp)
    (mtInv_nil width input)
  rw [hinv.2.1 y x]
  have hiff : WAction.quant (y, x) ∈ tr.map Prod.snd ↔ (y < height ∧ x < width) := by
    constructor
    · intro hmem
      exact quant_mem_trace_inv hv hn hmem
    · intro hb
      exact quant_mem_trace hv hn hb.1 hb.2
  rw [if_congr hiff rfl rfl]

/-- C1 (amended): on any image of width at least 2, every execution of the
wavefront engine allowed by the wait/lock protocol produces exactly the
serial engine's output grid. -/
theorem wavefront_eq_serial_of_width_ge_two {n width height : Nat}
    {tr : List (Nat × WAction)} (input : Nat → Nat → Int)
    (hn : 0 < n) (hw : 2 ≤ width) (hv : ValidTrace n width height tr)
    (y x : Nat) :
    (runMT input (tr.map Prod.snd)).out y x =
      (dither_image_st width height input).out y x := by
  rw [runMT_out hv hn hw input y x, dither_image_st_out width height input y x]

theorem cexTrace_valid : ValidTrace 2 1 2 cexTrace := by
  refine ⟨by decide, by decide, ?_⟩
  intro i c h
  fin_cases i
  · exact WAction.noConfusion h
  · exact WAction.noConfusion h
  · exact WAction.noConfusion h
  · exact WAction.noConfusion h
  · exact WAction.noConfusion h

theorem okTrace_valid : ValidTrace 1 2 1 okTrace := by
  refine ⟨by decide, by decide, ?_⟩
  intro i c h
  fin_cases i
  · exact WAction.noConfusion h
  · exact WAction.noConfusion h
  · exact WAction.noConfusion h
  · have hc : ((0 : Nat), (0 : Nat)) = c := WAction.wait.inj h
    exact ⟨⟨2, by decide⟩, by decide, by rw [← hc]; rfl⟩
  · exact WAction.noConfusion h
  · exact WAction.noConfusion h

theorem qbit_cases (v : Int) : qbit v = 0 ∨ qbit v = 255 := by
  rw [qbit, quantize]
  by_cases h : v > 128
  · right; simp [h]
  · left; simp [h]

theorem foldl_out_shape (es : List WAction) :
    ∀ st : MTState,
      (∀ y x, st.out y x = none ∨
        ∃ b, st.out y x = some b ∧ (b = 0 ∨ b = 255)) →
      ∀ y x, (es.foldl mtStep st).out y x = none ∨
        ∃ b, (es.foldl mtStep st).out y x = some b ∧ (b = 0 ∨ b = 255) := by
  induction es with
  | nil => intro st h; exact h
  | cons e es ih =>
    intro st h
    apply ih
    intro y x
    cases e with
    | wait c => exact h y x
    | mark c => exact h y x
    | dep c k => exact h y x
    | quant c =>
      rw [mtStep_quant_out]
      by_cases hyx : y = c.1 ∧ x = c.2
      · obtain ⟨h1, h2⟩ := hyx; subst h1; subst h2
        rw [upd2_same]
        exact Or.inr ⟨qbit (st.work c.1 c.2), rfl, qbit_cases _⟩
      · rw [upd2_ne _ _ _ _ _ _ hyx]
        exact h y x

theorem foldl_out_written (es : List WAction) :
    ∀ (st : MTState) (y x : Nat),
      (WAction.quant (y, x) ∈ es ∨ st.out y x ≠ none) →
      (es.foldl mtStep st).out y x ≠ none := by
  induction es with
  | nil =>
    intro st y x h
    rcases h with hmem | hne
    · simp at hmem
    · exact hne
  | cons e es ih =>
    intro st y x h
    apply ih
    rcases h with hmem | hne
    · rcases List.mem_cons.mp hmem with he | hmem'
      · right
        rw [← he, mtStep_quant_out]
        show upd2 st.out y x _ y x ≠ none
        rw [upd2_same]
        exact Option.some_ne_none _
      · left; exact hmem'
    · right
      cases e with
      | wait c => exact hne
      | mark c => exact hne
      | dep c k => exact hne
      | quant c =>
        rw [mtStep_quant_out]
        by_cases hyx : y = c.1 ∧ x = c.2
        · obtain ⟨h1, h2⟩ := hyx; subst h1; subst h2
          rw [upd2_same]
          exact Option.some_ne_none _
        · rw [upd2_ne _ _ _ _ _ _ hyx]
          exact hne

theorem runMT_out_bilevel {n width height : Nat} {tr : List (Nat × WAction)}
    (input : Nat → Nat → Int) (hn : 0 < n) (hv : ValidTrace n width height tr)
    {y x : Nat} (hy : y < height) (hx : x < width) :
    ∃ b, (runMT input (tr.map Prod.snd)).out y x = some b ∧ (b = 0 ∨ b = 255) := by
  have hshape := foldl_out_shape (tr.map Prod.snd) (initMT input)
    (fun _ _ => Or.inl rfl) y x
  have hwr := foldl_out_written (tr.map Prod.snd) (initMT input) y x
    (Or.inl (quant_mem_trace hv hn hy hx))
  rcases hshape with hnone | hsome
  · exact absurd hnone hwr
  · exact hsome

theorem mem_ite_singleton {α : Type} (P : Prop) [Decidable P] (a b : α) :
    (a ∈ (if P then [b] else [])) ↔ (a = b ∧ P) := by
  by_cases h : P <;> simp [h]

theorem foldl_serial_input (width height : Nat) (l : List (Nat × Nat)) :
    ∀ st : SerialState, (l.foldl (serialStep width height) st).input = st.input := by
  induction l with
  | nil => intro st; rfl
  | cons a l ih =>
    intro st
    rw [List.foldl_cons, ih]
    rfl

theorem foldl_ed_input (width height : Nat) (l : List (Nat × Nat)) :
    ∀ st : SerialState, (l.foldl (edStep width height) st).input = st.input := by
  induction l with
  | nil => intro st; rfl
  | cons a l ih =>
    intro st
    rw [List.foldl_cons, ih]
    rfl

theorem foldl_mt_input (es : List WAction) :
    ∀ st : MTState, (es.foldl mtStep st).input = st.input := by
  induction es with
  | nil => intro st; rfl
  | cons e es ih =>
    intro st
    rw [List.foldl_cons, ih]
    cases e <;> rfl

/-- The wavefront deposits of one pixel are exactly the serial `propagate`
applied to the current accumulator grid with the recorded error. -/
theorem depActions_foldl_eq_propagate (width height : Nat) (c : Nat × Nat)
    (st : MTState) :
    ((depActions width height c).foldl mtStep st).work =
      propagate width height st.work c.1 c.2 (st.errv c.1 c.2) := by
  by_cases h7 : c.2 + 1 < width <;> by_cases hR : c.1 + 1 < height <;>
    by_cases h3 : 0 < c.2 <;>
    simp [depActions, propagate, h7, hR, h3, mtStep, depTarget, depWeight]

theorem filterMap_quantOf_pixelActions (width height : Nat) (c : Nat × Nat) :
    (pixelActions width height c).filterMap quantOf = [c] := by
  by_cases h1 : 0 < c.1 ∧ c.2 + 1 < width <;> by_cases h2 : 0 < c.2 <;>
    by_cases h3 : c.2 + 1 < width <;> by_cases h4 : c.1 + 1 < height <;>
    simp [pixelActions, depActions, quantOf, h1, h2, h3, h4]

theorem filterMap_quantOf_flatMap (width height : Nat) :
    ∀ l : List (Nat × Nat),
      (l.flatMap (pixelActions width height)).filterMap quantOf = l := by
  intro l
  induction l with
  | nil => simp
  | cons a l ih =>
    rw [List.flatMap_cons, List.filterMap_append, filterMap_quantOf_pixelActions, ih]
    rfl

theorem visits_eq_ownedPixels (n t width height : Nat) :
    (process_wavefront n t width height).filterMap quantOf =
      ownedPixels n t width height := by
  rw [process_wavefront]
  exact filterMap_quantOf_flatMap width height _

theorem ownedPixels_pairwise (n t width height : Nat) :
    (ownedPixels n t width height).Pairwise
      (fun a b => a.1 + a.2 < b.1 + b.2 ∨ (a.1 + a.2 = b.1 + b.2 ∧ a.1 < b.1)) := by
  rw [ownedPixels, List.flatMap_def, List.pairwise_join]
  constructor
  · intro l hl
    simp only [List.mem_map] at hl
    obtain ⟨d, hd, rfl⟩ := hl
    rw [List.pairwise_map]
    refine List.Pairwise.imp_of_mem ?_
      (List.Pairwise.filter _ (List.pairwise_lt_range _))
    intro y1 y2 h1 h2 hlt
    simp only [List.mem_filter, List.mem_range, decide_eq_true_eq] at h1 h2
    right
    constructor
    · show y1 + (d - y1) = y2 + (d - y2)
      omega
    · exact hlt
  · rw [List.pairwise_map]
    refine List.Pairwise.imp_of_mem ?_
      (List.Pairwise.filter _ (List.pairwise_lt_range _))
    intro d1 d2 hd1 hd2 hlt a ha b hb
    simp only [List.mem_map, List.mem_filter, List.mem_range,
      decide_eq_true_eq] at ha hb
    obtain ⟨y1, ⟨-, hy1⟩, rfl⟩ := ha
    obtain ⟨y2, ⟨-, hy2⟩, rfl⟩ := hb
    left
    show y1 + (d1 - y1) < y2 + (d2 - y2)
    omega

/-- C1 counterexample: on the width-1, height-2 grayscale image
[[200],[130]] (cells in 0..255) the wait/lock protocol admits an execution
of `dither_image_mt` with 2 worker threads (`cexTrace`, in which thread 1
quantizes pixel (1,0) before thread 0 deposits 5/16 of pixel (0,0)'s error
into it; pixel (1,0) has no in-bounds left or top-right predecessor, so no
wait constrains this schedule) whose output differs byte-for-byte from the
serial engine: the wavefront run emits 255 at cell (1,0) while
`dither_image_st` emits 0 there. -/
theorem C1_counterexample_width_one :
    ValidTrace 2 1 2 cexTrace ∧
    (runMT cexInput (cexTrace.map Prod.snd)).out 1 0 = some 255 ∧
    (dither_image_st 1 2 cexInput).out 1 0 = some 0 :=
  ⟨cexTrace_valid, by decide, by decide⟩

/-- C1 witness instance: the single-worker execution `okTrace` on a 1x2
image produces the serial output at cell (0,1). -/
theorem C1_amended_witness :
    (runMT okInput (okTrace.map Prod.snd)).out 0 1 =
      (dither_image_st 2 1 okInput).out 0 1 :=
  wavefront_eq_serial_of_width_ge_two okInput (by decide) (by decide)
    okTrace_valid 0 1

/-- C2: quantization is the pure total function
`v ↦ (255 if v > 128 else 0, v - bit)`, and at the instant either engine
quantizes a pixel it writes exactly this bit to the output cell and records
exactly this error for the accumulator value it read. -/
theorem C2_quantize_spec :
    (∀ v : Int, (v > 128 → (quantize v).1 = 255) ∧
      (¬ v > 128 → (quantize v).1 = 0) ∧
      ((quantize v).1 = 255 ↔ v > 128) ∧
      (quantize v).2 = v - (quantize v).1) ∧
    (∀ (st : MTState) (c : Nat × Nat),
      (mtStep st (WAction.quant c)).out c.1 c.2 =
        some (quantize (st.work c.1 c.2)).1 ∧
      (mtStep st (WAction.quant c)).errv c.1 c.2 =
        (quantize (st.work c.1 c.2)).2) ∧
    (∀ (width height : Nat) (st : SerialState) (c : Nat × Nat),
      (serialStep width height st c).out c.1 c.2 =
        some (quantize (st.work c.1 c.2)).1) := by
  refine ⟨?_, ?_, ?_⟩
  · intro v
    by_cases h : v > 128 <;> simp [quantize, h]
  · intro st c
    obtain ⟨a, b⟩ := c
    constructor
    · rw [mtStep_quant_out, upd2_same]
      rfl
    · rw [mtStep_quant_errv, upd2_same]
      rfl
  · intro width height st c
    obtain ⟨a, b⟩ := c
    rw [serialStep_out width height st a b a b, if_pos ⟨rfl, rfl⟩]
    rfl

/-- C4: for an in-bounds quantized source (r,c), both engines add
`floor_divide(err * weight, 16)` to exactly the in-bounds targets among
(r,c+1) with weight 7, (r+1,c-1) with 3, (r+1,c) with 5, (r+1,c+1) with 1,
skip every out-of-bounds target, and modify no other accumulator cell; the
serial step writes no output cell other than (r,c). -/
theorem C4_deposit_pattern (width height : Nat) (st : SerialState) (mst : MTState)
    (r c y x : Nat) (hin : r < height ∧ c < width) :
    ((serialStep width height st (r, c)).work y x =
      st.work y x
      + (if y = r ∧ x = c + 1 ∧ c + 1 < width then
           floor_divide (qerr (st.work r c) * 7) 16 else 0)
      + (if y = r + 1 ∧ x = c - 1 ∧ (r + 1 < height ∧ 0 < c) then
           floor_divide (qerr (st.work r c) * 3) 16 else 0)
      + (if y = r + 1 ∧ x = c ∧ r + 1 < height then
           floor_divide (qerr (st.work r c) * 5) 16 else 0)
      + (if y = r + 1 ∧ x = c + 1 ∧ (r + 1 < height ∧ c + 1 < width) then
           floor_divide (qerr (st.work r c) * 1) 16 else 0)) ∧
    ((serialStep width height st (r, c)).out y x =
      if y = r ∧ x = c then some (qbit (st.work r c)) else st.out y x) ∧
    (((depActions width height (r, c)).foldl mtStep mst).work y x =
      mst.work y x
      + (if y = r ∧ x = c + 1 ∧ c + 1 < width then
           floor_divide (mst.errv r c * 7) 16 else 0)
      + (if y = r + 1 ∧ x = c - 1 ∧ (r + 1 < height ∧ 0 < c) then
           floor_divide (mst.errv r c * 3) 16 else 0)
      + (if y = r + 1 ∧ x = c ∧ r + 1 < height then
           floor_divide (mst.errv r c * 5) 16 else 0)
      + (if y = r + 1 ∧ x = c + 1 ∧ (r + 1 < height ∧ c + 1 < width) then
           floor_divide (mst.errv r c * 1) 16 else 0)) := by
  refine ⟨serialStep_work width height st r c y x,
    serialStep_out width height st r c y x, ?_⟩
  have h2 := congrFun (congrFun
    (depActions_foldl_eq_propagate width height (r, c) mst) y) x
  rw [h2]
  exact propagate_eval width height mst.work r c (mst.errv r c) y x

/-- C4 witness: on a uniform 200-valued 2x2 image, quantizing (0,0) adds
`floor_divide(qerr 200 * 7, 16)` to the right-hand neighbour (0,1). -/
theorem C4_witness :
    (serialStep 2 2 (initState okInput) (0, 0)).work 0 1 =
      200 + floor_divide (qerr 200 * 7) 16 := by
  have h := (C4_deposit_pattern 2 2 (initState okInput) (initMT okInput)
    0 0 0 1 (by decide)).1
  simpa [initState, okInput] using h

/-- C5 counterexample: the claim that every accumulator access holds that
coordinate's mutex is false.  For pixel (0,0) on a 2x2 image the very first
work-array access of `process_wavefront` — the quantization read of
`work[0][0]` at thread.c line 222 — is performed with no mutex held. -/
theorem C5_counterexample_unlocked_read :
    ¬ (∀ a ∈ pixelWorkAccesses 2 2 (0, 0), a.lockHeld = some a.cell) := by decide

theorem mem_ite_nil {α : Type} (P : Prop) [Decidable P] (a : α) (l : List α) :
    (a ∈ (if P then l else [])) ↔ (a ∈ l ∧ P) := by
  by_cases h : P <;> simp [h]

/-- C5 (amended): every additive deposit into an accumulator cell is
performed while holding exactly that cell's mutex, but the read performed
by a coordinate's own quantization step holds no mutex at all. -/
theorem C5_lock_discipline (width height : Nat) (c : Nat × Nat) (a : WorkAccess)
    (ha : a ∈ pixelWorkAccesses width height c) :
    (a.kind = AccKind.depositAcc → a.lockHeld = some a.cell) ∧
    (a.kind = AccKind.quantRead → a.lockHeld = none ∧ a.cell = c) := by
  simp only [pixelWorkAccesses, List.append_assoc, List.mem_append,
    List.mem_singleton, mem_ite_singleton, mem_ite_nil] at ha
  rcases ha with h | ⟨h, -⟩ | ⟨⟨h, -⟩ | h | ⟨h, -⟩, -⟩ <;> subst h <;> simp

/-- C5 witness: the 7/16 deposit into (0,1) from source (0,0) on a 2x2
image holds the (0,1) mutex. -/
theorem C5_witness :
    ((⟨(0, 1), AccKind.depositAcc, some (0, 1)⟩ : WorkAccess).kind =
        AccKind.depositAcc →
      (⟨(0, 1), AccKind.depositAcc, some (0, 1)⟩ : WorkAccess).lockHeld =
        some (⟨(0, 1), AccKind.depositAcc, some (0, 1)⟩ : WorkAccess).cell) ∧
    ((⟨(0, 1), AccKind.depositAcc, some (0, 1)⟩ : WorkAccess).kind =
        AccKind.quantRead →
      (⟨(0, 1), AccKind.depositAcc, some (0, 1)⟩ : WorkAccess).lockHeld = none ∧
      (⟨(0, 1), AccKind.depositAcc, some (0, 1)⟩ : WorkAccess).cell = (0, 0)) :=
  C5_lock_discipline 2 2 (0, 0) _ (by decide)

/-- C6: a wavefront worker with id `thread_id` acts exactly on the pixels
of the diagonals congruent to its id modulo `num_threads`; it visits pixels
in strictly increasing (diagonal, row) order; and for each owned pixel its
action block is, in order: wait on (row-1,col+1) if in bounds, wait on
(row,col-1) if in bounds, quantize and write the output cell, perform the
bounds-guarded deposits, and mark the pixel processed. -/
theorem C6_worker_structure (num_threads thread_id width height : Nat)
    (c : Nat × Nat)
    (hc : c.1 < height ∧ c.2 < width ∧ (c.1 + c.2) % num_threads = thread_id) :
    (∀ c', WAction.quant c' ∈ process_wavefront num_threads thread_id width height ↔
      (c'.1 < height ∧ c'.2 < width ∧ (c'.1 + c'.2) % num_threads = thread_id)) ∧
    ((process_wavefront num_threads thread_id width height).filterMap quantOf).Pairwise
      (fun a b => a.1 + a.2 < b.1 + b.2 ∨ (a.1 + a.2 = b.1 + b.2 ∧ a.1 < b.1)) ∧
    (∃ l1 l2, process_wavefront num_threads thread_id width height =
      l1 ++ ((if 0 < c.1 ∧ c.2 + 1 < width
               then [WAction.wait (c.1 - 1, c.2 + 1)] else [])
        ++ (if 0 < c.2 then [WAction.wait (c.1, c.2 - 1)] else [])
        ++ [WAction.quant c]
        ++ ((if c.2 + 1 < width then [WAction.dep c 0] else [])
          ++ (if c.1 + 1 < height then
                (if 0 < c.2 then [WAction.dep c 1] else [])
                ++ [WAction.dep c 2]
                ++ (if c.2 + 1 < width then [WAction.dep c 3] else [])
              else []))
        ++ [WAction.mark c]) ++ l2) := by
  refine ⟨?_, ?_, ?_⟩
  · intro c'
    rw [← List.count_pos_iff, count_quant_worker]
    split_ifs with h
    · exact ⟨fun _ => h, fun _ => Nat.zero_lt_one⟩
    · exact ⟨fun hh => absurd hh (by omega), fun hh => absurd hh h⟩
  · rw [visits_eq_ownedPixels]
    exact ownedPixels_pairwise num_threads thread_id width height
  · obtain ⟨F1, F2, hP⟩ := program_block
      ((mem_ownedPixels num_threads thread_id width height c).mpr hc)
    exact ⟨F1, F2, by rw [hP]; rfl⟩

/-- C6 witness: pixel (0,1) belongs to the single worker's program on a
1x2 image. -/
theorem C6_witness :
    WAction.quant (0, 1) ∈ process_wavefront 1 0 2 1 ↔
      ((0 : Nat) < 1 ∧ (1 : Nat) < 2 ∧ (0 + 1) % 1 = 0) :=
  (C6_worker_structure 1 0 2 1 (0, 0) (by decide)).1 (0, 1)

/-- C7: after a completed dithering call — serial, or any valid wavefront
execution — every in-bounds output cell holds exactly 0 or exactly 255. -/
theorem C7_output_bilevel {n width height : Nat} {tr : List (Nat × WAction)}
    (input : Nat → Nat → Int) (hn : 0 < n) (hv : ValidTrace n width height tr)
    (y x : Nat) (hy : y < height) (hx : x < width) :
    (∃ b, (dither_image_st width height input).out y x = some b ∧
      (b = 0 ∨ b = 255)) ∧
    (∃ b, (runMT input (tr.map Prod.snd)).out y x = some b ∧
      (b = 0 ∨ b = 255)) := by
  constructor
  · refine ⟨qbit (sval width input y x), ?_, qbit_cases _⟩
    rw [dither_image_st_out width height input y x, if_pos ⟨hy, hx⟩]
  · exact runMT_out_bilevel input hn hv hy hx

/-- C7 witness instance at cell (0,0) of a 1x2 uniform image. -/
theorem C7_witness :
    (∃ b, (dither_image_st 2 1 okInput).out 0 0 = some b ∧
      (b = 0 ∨ b = 255)) ∧
    (∃ b, (runMT okInput (okTrace.map Prod.snd)).out 0 0 = some b ∧
      (b = 0 ∨ b = 255)) :=
  C7_output_bilevel okInput (by decide) okTrace_valid 0 0 (by decide) (by decide)

/-- C8 counterexample: the claim that malformed dimensions are rejected
before any allocation is false.  With height = -1 and width = 5,
`dither_image_mt` still begins with the working-grid allocation, and `main`
(argc = 4, successful PNG read) proceeds to run an engine (the serial one,
since height*width < 10000) instead of rejecting. -/
theorem C8_counterexample_no_dim_check :
    MtPhase.allocWork ∈ dither_image_mt_phases 5 (-1) 2 ∧
    main_model 4 true 5 (-1) 2 = MainOutcome.ranSerial :=
  ⟨by decide, by decide⟩

/-- C8 (amended): no dimension validation exists anywhere on the path: the
first phase of `dither_image_mt` is the working-grid allocation regardless
of the dimensions, and the only rejections `main` performs are a wrong
argument count and a failed PNG read — both independent of the
dimensions. -/
theorem C8_no_rejection_before_alloc (width height num_threads argc : Int)
    (read_ok : Bool) :
    (dither_image_mt_phases width height num_threads).head? =
      some MtPhase.allocWork ∧
    (main_model argc read_ok width height num_threads = MainOutcome.usageError ↔
      (argc ≠ 3 ∧ argc ≠ 4)) ∧
    (main_model argc read_ok width height num_threads = MainOutcome.readError ↔
      (¬ (argc ≠ 3 ∧ argc ≠ 4) ∧ read_ok = false)) := by
  refine ⟨rfl, ?_, ?_⟩
  · rw [main_model]
    split_ifs with h1 h2 h3 <;> simp_all
  · rw [main_model]
    split_ifs with h1 h2 h3 <;> simp_all

/-- C9: neither engine ever writes the input grid — dithering leaves the
input component of the state untouched — and all error accumulation happens
on the private working grid, which is seeded cell by cell from the input. -/
theorem C9_input_unchanged (width height : Nat) (input : Nat → Nat → Int)
    (es : List WAction) :
    (dither_image_st width height input).input = input ∧
    (dither_image width height input).input = input ∧
    (runMT input es).input = input ∧
    (initState input).work = (fun y x => input y x) ∧
    (initMT input).work = (fun y x => input y x) := by
  refine ⟨?_, ?_, ?_, rfl, rfl⟩
  · rw [dither_image_st, foldl_serial_input]
    rfl
  · rw [dither_image, foldl_ed_input]
    rfl
  · rw [runMT, foldl_mt_input]
    rfl

/-- C10: the standalone serial implementation `dither_image` of
error_diffusion.c and the serial implementation `dither_image_st` of
thread.c are the same raster-order Floyd-Steinberg sweep with the same
quantization rule and the same floor_divide arithmetic: they produce
identical results on every input. -/
theorem C10_serial_engines_equal (width height : Nat)
    (input : Nat → Nat → Int) :
    dither_image width height input = dither_image_st width height input := rfl
